import Mathlib

/-!
Verification development for the `go_scamalytics_py` repository.

The repository has two source files:
  * `ipchecker/ipchecker.py` — `CheckIP` fetches the scamalytics page for an
    IP and extracts the "IP Fraud Risk API" JSON block from the page text
    (`_extract_json_block_from_text`, `_safe_json_loads`, a regex fallback
    scrape, and field promotion);
  * `cli/cli.py` — `Start` fans one `CheckIP` task per input IP over a
    thread pool and collects one result dict per task.

This file gives a shallow embedding of that code.  Page texts are modelled
as `List Char` (Python strings are sequences of code points), Python dicts
as insertion-ordered association lists, JSON values as an inductive type,
and `json.loads` as a fuel-indexed recursive-descent parser following the
grammar accepted by Python's `json` module.  Operations that can raise in
Python are modelled in an `Except` monad; `try`/`except` blocks become
explicit handlers.
-/

namespace Scam

/-- Opening brace character `{`. -/
def lbrace : Char := Char.ofNat 123

/-- Closing brace character `}`. -/
def rbrace : Char := Char.ofNat 125

/-- Apostrophe / single-quote character. -/
def squote : Char := Char.ofNat 39

/-- Whitespace as matched by Python's `re` pattern `\s` on ASCII text:
space, tab, newline, carriage return, vertical tab, form feed. -/
def isReWs (c : Char) : Bool :=
  c = ' ' || c = '\t' || c = '\n' || c = '\r' || c = Char.ofNat 11 || c = Char.ofNat 12

/-- Whitespace skipped by Python's `json` module (its `WHITESPACE` regex
is `[ \t\n\r]*`). -/
def isJsonWs (c : Char) : Bool :=
  c = ' ' || c = '\t' || c = '\n' || c = '\r'

/-- JSON values, as produced by `json.loads`.  Numbers keep their source
literal (the claims under study never compare numeric magnitudes), and
objects are insertion-ordered key/value lists as in a Python `dict`. -/
inductive Json where
  | null : Json
  | bool (b : Bool) : Json
  | num (lit : String) : Json
  | str (s : String) : Json
  | arr (elems : List Json) : Json
  | obj (fields : List (String × Json)) : Json
deriving Repr

/-- A Python dict with `String` keys, keeping insertion order; this is the
shape of both parsed JSON objects and the result dicts `CheckIP` returns. -/
abbrev RDict := List (String × Json)

/-- Assignment `d[k] = v` on a Python dict: overwrites in place if the key
exists (keeping its position), otherwise appends. -/
def dictInsert (k : String) (v : Json) : RDict → RDict
  | [] => [(k, v)]
  | (k', v') :: rest =>
    if k' = k then (k, v) :: rest else (k', v') :: dictInsert k v rest

/-- Lookup `d.get(k)` on a Python dict (first matching key; keys built via
`dictInsert` are unique). -/
def dictGet (d : RDict) (k : String) : Option Json :=
  match d with
  | [] => none
  | (k', v) :: rest => if k' = k then some v else dictGet rest k

/-- Python truthiness of a JSON value: `None`, `False`, zero numbers, and
empty strings/lists/dicts are falsy.  A number literal denotes zero exactly
when it has no digit `1`-`9` (and is not one of the `NaN`/`Infinity`
constants, which are truthy). -/
def jsonFalsy : Json → Bool
  | .null => true
  | .bool b => !b
  | .num lit =>
    if lit = "NaN" || lit = "Infinity" || lit = "-Infinity" then false
    else lit.toList.all (fun c => !(c.toNat ≥ 49 && c.toNat ≤ 57))
  | .str s => s.isEmpty
  | .arr xs => xs.isEmpty
  | .obj fs => fs.isEmpty

/-! ### Text search primitives (`str.find`) -/

/-- Index of the first occurrence of `pat` in `cs` (Python `text.find(pat)`,
with `none` for `-1`). -/
def findSubIdx (pat : List Char) : List Char → Option Nat
  | [] => if pat.isPrefixOf [] then some 0 else none
  | c :: r =>
    if pat.isPrefixOf (c :: r) then some 0
    else (findSubIdx pat r).map (· + 1)

/-- Index of the first occurrence of character `t` (Python
`text.find(t, i)` after dropping `i` characters). -/
def findCharIdx (t : Char) : List Char → Option Nat
  | [] => none
  | c :: r => if c = t then some 0 else (findCharIdx t r).map (· + 1)

/-! ### The balanced-brace scan of `_extract_json_block_from_text`

The Python loop walks from the first `{`, incrementing a depth counter on
`{` and decrementing on `}`; it stops right after the `}` that returns the
depth to zero.  `scanBal` returns how many characters the loop consumed
(`end - start`), or `none` if the depth never returns to zero. -/

def scanBal : List Char → Int → Option Nat
  | [], _ => none
  | c :: r, depth =>
    if c = lbrace then (scanBal r (depth + 1)).map (· + 1)
    else if c = rbrace then
      if depth - 1 = 0 then some 1 else (scanBal r (depth - 1)).map (· + 1)
    else (scanBal r depth).map (· + 1)

/-! ### The sanitization passes

`_extract_json_block_from_text` cleans the candidate block with
`re.sub(r"<[^>]+>", "", ·)`, `·.replace("...", "")`,
`re.sub(r"//.*?$", "", ·, flags=re.MULTILINE)`, `re.sub(r",\s*}", "}", ·)`
and `re.sub(r",\s*]", "]", ·)`, in that order.  Each is modelled as a
left-to-right scan replacing leftmost non-overlapping matches, which is
what `re.sub` and `str.replace` do. -/

/-- Worker for the HTML-tag strip.  While no `<` is pending the scan copies
characters; after a `<` it buffers (in reverse) the characters seen, which
by `[^>]+` may themselves include `<`.  A `>` after at least one buffered
character closes a match `<[^>]+>` and everything buffered is dropped; a
`>` arriving immediately after the `<` means `<>` matched nothing and both
characters are kept.  An unclosed buffer at the end of text is emitted
verbatim (there is no later `>` so no alternative match exists). -/
def stripTagsGo : List Char → Option (List Char) → List Char
  | [], none => []
  | [], some buf => '<' :: buf.reverse
  | c :: r, none =>
    if c = '<' then stripTagsGo r (some []) else c :: stripTagsGo r none
  | c :: r, some buf =>
    if c = '>' then
      if buf.isEmpty then '<' :: '>' :: stripTagsGo r none
      else stripTagsGo r none
    else stripTagsGo r (some (c :: buf))

/-- Model of `re.sub(r"<[^>]+>", "", candidate)`. -/
def stripTags (cs : List Char) : List Char := stripTagsGo cs none

/-- Does a run of three dots start here?  Mirrors the leftmost test done by
`str.replace("...", "")`. -/
def triAt (c : Char) (r : List Char) : Bool :=
  c = '.' && decide (r.take 2 = ['.', '.'])

/-- Model of `candidate.replace("...", "")`: remove leftmost
non-overlapping runs of exactly three dots. -/
def removeDots : List Char → List Char
  | [] => []
  | [c] => [c]
  | [c, d] => [c, d]
  | c :: d :: e :: r =>
    if c = '.' && d = '.' && e = '.' then removeDots r
    else c :: removeDots (d :: e :: r)

/-- Does a `//` comment start here? -/
def dblAt (c : Char) (r : List Char) : Bool :=
  c = '/' && decide (r.take 1 = ['/'])

/-- Worker for the comment strip: in comment mode (the `Bool` argument)
characters are dropped up to, but excluding, the next newline. -/
def stripCommentsGo : List Char → Bool → List Char
  | [], _ => []
  | c :: r, true =>
    if c = '\n' then '\n' :: stripCommentsGo r false
    else stripCommentsGo r true
  | c :: r, false =>
    if dblAt c r then stripCommentsGo r true
    else c :: stripCommentsGo r false

/-- Model of `re.sub(r"//.*?$", "", candidate, flags=re.MULTILINE)`: from
each `//` outside a previous match, drop up to (excluding) the next newline
or the end of text; `.` does not match a newline, so the non-greedy `.*?$`
always extends to exactly the end of the line. -/
def stripComments (cs : List Char) : List Char := stripCommentsGo cs false

/-- Worker for `re.sub(",\s*}", "}", ·)` (and the `]` variant), parametrized
by the closing character `k`.  After a `,` the scan buffers the following
whitespace run; reaching `k` completes a match (the comma and whitespace are
dropped), while any other character abandons the match, the buffered text is
restored, and scanning resumes at that character. -/
def rtcGo (k : Char) : List Char → Option (List Char) → List Char
  | [], none => []
  | [], some ws => ',' :: ws.reverse
  | c :: r, none =>
    if c = ',' then rtcGo k r (some []) else c :: rtcGo k r none
  | c :: r, some ws =>
    if c = k then k :: rtcGo k r none
    else if isReWs c then rtcGo k r (some (c :: ws))
    else if c = ',' then ',' :: ws.reverse ++ rtcGo k r (some [])
    else ',' :: ws.reverse ++ c :: rtcGo k r none

/-- Model of `re.sub(r",\s*}", "}", candidate)`. -/
def rtcBrace (cs : List Char) : List Char := rtcGo rbrace cs none

/-- Model of `re.sub(r",\s*]", "]", candidate)`. -/
def rtcBracket (cs : List Char) : List Char := rtcGo ']' cs none

/-- The full sanitization chain applied to an extracted candidate, in
source order. -/
def sanitize (cs : List Char) : List Char :=
  rtcBracket (rtcBrace (stripComments (removeDots (stripTags cs))))

/-- The anchor phrase searched for by `_extract_json_block_from_text`. -/
def anchorChars : List Char := "IP Fraud Risk API".toList

/-- The raw candidate block in `rest` (the page text from the marker
position on): from the first `{`, the characters up to and including the
brace that balances it.  `none` when there is no `{` or the depth never
returns to zero. -/
def rawBlockFrom (rest : List Char) : Option (List Char) :=
  match findCharIdx lbrace rest with
  | none => none
  | some j =>
    match scanBal (rest.drop j) 0 with
    | none => none
    | some n => some ((rest.drop j).take n)

/-- Model of `_extract_json_block_from_text`: locate the anchor phrase
(defaulting to position 0 when absent, as the Python `-1` branch does),
take the balanced-brace block from the first `{` at or after it, and
sanitize it. -/
def extract_json_block_from_text (cs : List Char) : Option (List Char) :=
  (rawBlockFrom (cs.drop ((findSubIdx anchorChars cs).getD 0))).map sanitize

/-! ### A model of `json.loads`

Recursive-descent parser for the grammar accepted by Python's `json`
module in its default (strict) mode: JSON values with `NaN`/`Infinity`/
`-Infinity` constants, whitespace `[ \t\n\r]` between tokens, strings with
the standard escapes (including `\uXXXX` with surrogate-pair combining),
raw control characters rejected inside strings, numbers per
`-?(0|[1-9]\d*)(\.\d+)?([eE][-+]?\d+)?`, and duplicate object keys
resolved last-value-wins.  `loads` requires the whole input (up to
trailing whitespace) to be consumed.  Parsing functions take a fuel
argument decremented at every nested call; since every such call follows
the consumption of at least one character, fuel `length + 1` never runs
out. -/

/-- Drop leading JSON whitespace. -/
def skipWs (cs : List Char) : List Char := cs.dropWhile isJsonWs

/-- Value of a hex digit, if any. -/
def hexVal (c : Char) : Option Nat :=
  if c.toNat ≥ 48 && c.toNat ≤ 57 then some (c.toNat - 48)
  else if c.toNat ≥ 97 && c.toNat ≤ 102 then some (c.toNat - 87)
  else if c.toNat ≥ 65 && c.toNat ≤ 70 then some (c.toNat - 55)
  else none

/-- Read exactly four hex digits. -/
def hex4 : List Char → Option (Nat × List Char)
  | a :: b :: c :: d :: r => do
    let va ← hexVal a
    let vb ← hexVal b
    let vc ← hexVal c
    let vd ← hexVal d
    some (((va * 16 + vb) * 16 + vc) * 16 + vd, r)
  | _ => none

/-- Parse the body of a JSON string literal (the opening quote already
consumed), returning the decoded characters and the rest of the input.
Escapes follow `json`'s `py_scanstring`; a high surrogate `\uD800-\uDBFF`
followed by a low surrogate escape is combined into one code point.  The
fuel argument only forces structural recursion: every recursive call
consumes at least one character, so callers pass `length + 1` and the
`0` case is unreachable. -/
def parseStr : Nat → List Char → Option (List Char × List Char)
  | 0, _ => none
  | _ + 1, [] => none
  | fuel + 1, c :: r =>
    if c = '"' then some ([], r)
    else if c = '\\' then
      match r with
      | [] => none
      | e :: r2 =>
        if e = 'u' then
          match r2 with
          | a :: b :: c2 :: d :: r3 =>
            match hexVal a, hexVal b, hexVal c2, hexVal d with
            | some va, some vb, some vc, some vd =>
              let n := ((va * 16 + vb) * 16 + vc) * 16 + vd
              if n ≥ 0xD800 && n < 0xDC00 then
                match r3 with
                | b1 :: u1 :: r4 =>
                  if b1 = '\\' && u1 = 'u' then
                    match r4 with
                    | a2 :: b2 :: c3 :: d2 :: r5 =>
                      match hexVal a2, hexVal b2, hexVal c3, hexVal d2 with
                      | some wa, some wb, some wc, some wd =>
                        let m := ((wa * 16 + wb) * 16 + wc) * 16 + wd
                        if m ≥ 0xDC00 && m < 0xE000 then
                          (parseStr fuel r5).map (fun p =>
                            (Char.ofNat (0x10000 + (n - 0xD800) * 0x400 + (m - 0xDC00)) :: p.1,
                             p.2))
                        else
                          (parseStr fuel (b1 :: u1 :: a2 :: b2 :: c3 :: d2 :: r5)).map
                            (fun p => (Char.ofNat n :: p.1, p.2))
                      | _, _, _, _ => none
                    | _ => none
                  else (parseStr fuel (b1 :: u1 :: r4)).map (fun p => (Char.ofNat n :: p.1, p.2))
                | [b1] => (parseStr fuel [b1]).map (fun p => (Char.ofNat n :: p.1, p.2))
                | [] => none
              else (parseStr fuel r3).map (fun p => (Char.ofNat n :: p.1, p.2))
            | _, _, _, _ => none
          | _ => none
        else
          match
            (if e = '"' then some '"'
             else if e = '\\' then some '\\'
             else if e = '/' then some '/'
             else if e = 'b' then some (Char.ofNat 8)
             else if e = 'f' then some (Char.ofNat 12)
             else if e = 'n' then some '\n'
             else if e = 'r' then some '\r'
             else if e = 't' then some '\t'
             else none) with
          | some d => (parseStr fuel r2).map (fun p => (d :: p.1, p.2))
          | none => none
    else if c.toNat < 0x20 then none
    else (parseStr fuel r).map (fun p => (c :: p.1, p.2))

/-- Span of decimal digits. -/
def spanDigits (cs : List Char) : List Char × List Char :=
  (cs.takeWhile Char.isDigit, cs.dropWhile Char.isDigit)

/-- Parse a number literal per the `json` module's `NUMBER_RE`
(`-?(0|[1-9]\d*)(\.\d+)?([eE][-+]?\d+)?`), returning the matched literal
text.  Fails when the regex does not match at this position. -/
def parseNum (cs : List Char) : Option (Json × List Char) :=
  let (negPart, r0) :=
    match cs with
    | '-' :: r => (['-'], r)
    | _ => ([], cs)
  match r0 with
  | [] => none
  | d :: r1 =>
    if d = '0' then
      let (frac, r2) := parseFracExp r1
      some (.num (negPart ++ '0' :: frac).asString, r2)
    else if d.isDigit then
      let (ds, r2) := spanDigits r1
      let (frac, r3) := parseFracExp r2
      some (.num (negPart ++ d :: ds ++ frac).asString, r3)
    else none
where
  /-- The optional fraction and exponent groups. -/
  parseFracExp (cs : List Char) : List Char × List Char :=
    let (fr, r1) :=
      match cs with
      | '.' :: r =>
        match spanDigits r with
        | ([], _) => ([], cs)
        | (ds, r2) => ('.' :: ds, r2)
      | _ => ([], cs)
    let (ex, r2) :=
      match r1 with
      | e :: rest =>
        if e = 'e' || e = 'E' then
          let (sgn, rest2) :=
            match rest with
            | s :: rr => if s = '+' || s = '-' then ([s], rr) else ([], rest)
            | [] => ([], rest)
          match spanDigits rest2 with
          | ([], _) => ([], r1)
          | (ds, r3) => (e :: sgn ++ ds, r3)
        else ([], r1)
      | [] => ([], r1)
    (fr ++ ex, r2)

mutual

/-- Parse one JSON value at the current position (no leading-whitespace
skip: callers skip whitespace first, as the `json` scanner does). -/
def parseValue : Nat → List Char → Option (Json × List Char)
  | 0, _ => none
  | fuel + 1, cs =>
    match cs with
    | [] => none
    | c :: r =>
      if c = '"' then (parseStr (r.length + 1) r).map (fun p => (.str p.1.asString, p.2))
      else if c = lbrace then parseObjBody fuel r
      else if c = '[' then parseArrBody fuel r
      else if ['n', 'u', 'l', 'l'].isPrefixOf cs then some (.null, cs.drop 4)
      else if ['t', 'r', 'u', 'e'].isPrefixOf cs then some (.bool true, cs.drop 4)
      else if ['f', 'a', 'l', 's', 'e'].isPrefixOf cs then some (.bool false, cs.drop 5)
      else
        match parseNum cs with
        | some p => some p
        | none =>
          if ['N', 'a', 'N'].isPrefixOf cs then some (.num "NaN", cs.drop 3)
          else if ['I', 'n', 'f', 'i', 'n', 'i', 't', 'y'].isPrefixOf cs then
            some (.num "Infinity", cs.drop 8)
          else if ['-', 'I', 'n', 'f', 'i', 'n', 'i', 't', 'y'].isPrefixOf cs then
            some (.num "-Infinity", cs.drop 9)
          else none

/-- Parse an object body (after the `{`): empty object, or a member list
starting at its first key's opening quote. -/
def parseObjBody : Nat → List Char → Option (Json × List Char)
  | 0, _ => none
  | fuel + 1, r =>
    match skipWs r with
    | [] => none
    | c :: r1 =>
      if c = rbrace then some (.obj [], r1)
      else if c = '"' then parseMembers fuel r1 []
      else none

/-- Parse object members; the position is just after the opening quote of
the next key.  Duplicate keys overwrite (last value wins, first position
kept), as building a Python `dict` from pairs does. -/
def parseMembers : Nat → List Char → List (String × Json) →
    Option (Json × List Char)
  | 0, _, _ => none
  | fuel + 1, cs, acc =>
    match parseStr (cs.length + 1) cs with
    | none => none
    | some (key, r1) =>
      match skipWs r1 with
      | ':' :: r2 =>
        match parseValue fuel (skipWs r2) with
        | none => none
        | some (v, r3) =>
          let acc2 := dictInsert key.asString v acc
          match skipWs r3 with
          | c :: r4 =>
            if c = rbrace then some (.obj acc2, r4)
            else if c = ',' then
              match skipWs r4 with
              | '"' :: r5 => parseMembers fuel r5 acc2
              | _ => none
            else none
          | [] => none
      | _ => none

/-- Parse an array body (after the `[`). -/
def parseArrBody : Nat → List Char → Option (Json × List Char)
  | 0, _ => none
  | fuel + 1, r =>
    match skipWs r with
    | [] => none
    | c :: r1 =>
      if c = ']' then some (.arr [], r1)
      else parseElems fuel (c :: r1) []

/-- Parse array elements, position at the start of the next element. -/
def parseElems : Nat → List Char → List Json → Option (Json × List Char)
  | 0, _, _ => none
  | fuel + 1, cs, acc =>
    match parseValue fuel cs with
    | none => none
    | some (v, r1) =>
      match skipWs r1 with
      | c :: r2 =>
        if c = ']' then some (.arr (acc ++ [v]), r2)
        else if c = ',' then parseElems fuel (skipWs r2) (acc ++ [v])
        else none
      | [] => none

end

/-- Model of `json.loads`: skip leading whitespace, parse one value, and
require only whitespace to remain; `none` models a raised `ValueError`. -/
def jsonLoads (cs : List Char) : Option Json :=
  match parseValue (cs.length + 1) (skipWs cs) with
  | some (v, rest) => if skipWs rest = [] then some v else none
  | none => none

/-- Replace every single quote by a double quote
(`s.replace("'", "\"")`). -/
def quoteRepl (cs : List Char) : List Char :=
  cs.map (fun c => if c = squote then '"' else c)

/-- Model of `_safe_json_loads`: strict parse, then one retry with single
quotes replaced by double quotes; `none` when both attempts fail.  The
`try`/`except` blocks of the source are the two `match` fallthroughs. -/
def safe_json_loads (cs : List Char) : Option Json :=
  match jsonLoads cs with
  | some v => some v
  | none => jsonLoads (quoteRepl cs)

/-! ### The fallback regex scrape

When no block is extracted, `CheckIP` runs
`re.search(r'"K"\s*:\s*"([^"]+)"', text)` for `K` in `ip`, `score`,
`risk`.  The pattern is deterministic: literal `"K"`, optional whitespace
around `:`, then a non-empty greedy run of non-quote characters closed by
a quote. -/

/-- Attempt the key/value pattern at the current position. -/
def kvMatchAt (key : List Char) (cs : List Char) : Option (List Char) :=
  if cs.take (key.length + 2) = '"' :: key ++ ['"'] then
    let r1 := (cs.drop (key.length + 2)).dropWhile isReWs
    match r1 with
    | ':' :: r2 =>
      match r2.dropWhile isReWs with
      | '"' :: r3 =>
        let cap := r3.takeWhile (· ≠ '"')
        if cap = [] then none
        else if r3.dropWhile (· ≠ '"') = [] then none
        else some cap
      | _ => none
    | _ => none
  else none

/-- Model of `re.search` for the key/value pattern: the capture of the
leftmost match, if any. -/
def searchKV (key : List Char) : List Char → Option (List Char)
  | [] => none
  | c :: r =>
    match kvMatchAt key (c :: r) with
    | some cap => some cap
    | none => searchKV key r

/-! ### The body of `CheckIP` after the page fetch

Operations that can raise in Python are modelled in `Except String`:
`_safe_json_loads` is total (it catches internally), but the success
branch calls `parsed.get(...)`, `"..." in parsed` and `parsed[...]`,
which raise when `parsed` is not a dict (they never do — see
`checkBodyE_ok` — but the model keeps the possibility). -/

/-- Python `d.get(k, default)`; raises `AttributeError` on non-dicts. -/
def pyGetD (v : Json) (k : String) (dflt : Json) : Except String Json :=
  match v with
  | .obj fs => .ok ((dictGet fs k).getD dflt)
  | _ => .error "AttributeError: get"

/-- Python `k in d` for the dict case; raises `TypeError` otherwise (the
string-membership case cannot be reached here, since `parsed` comes from
a block starting with a brace). -/
def pyContains (v : Json) (k : String) : Except String Bool :=
  match v with
  | .obj fs => .ok (dictGet fs k).isSome
  | _ => .error "TypeError: in"

/-- Python `d[k]`; raises `KeyError` when missing, `TypeError` on
non-dicts. -/
def pyIndex (v : Json) (k : String) : Except String Json :=
  match v with
  | .obj fs =>
    match dictGet fs k with
    | some x => .ok x
    | none => .error "KeyError"
  | _ => .error "TypeError: index"

/-- The auxiliary fields copied by the success branch, in source order. -/
def extraKeys : List String :=
  ["is_blacklisted_external", "operator", "hostname", "asn"]

/-- The `for k in (...)` loop of the success branch:
`if k in parsed: out[k] = parsed[k]`, threading the raising operations. -/
def extrasLoop (parsed : Json) : List String → RDict → Except String RDict
  | [], o => .ok o
  | k :: ks, o =>
    match pyContains parsed k with
    | .error e => .error e
    | .ok c =>
      if c then
        match pyIndex parsed k with
        | .error e => .error e
        | .ok v => extrasLoop parsed ks (dictInsert k v o)
      else extrasLoop parsed ks o

/-- The fallback partial result: `{"ip": ip}` then conditional overwrites
from the three regex captures, in source order. -/
def fbDict (ip : String) (mi ms mr : Option (List Char)) : RDict :=
  let r0 : RDict := [("ip", .str ip)]
  let r1 := match mi with
    | some c => dictInsert "ip" (.str c.asString) r0
    | none => r0
  let r2 := match ms with
    | some c => dictInsert "score" (.str c.asString) r1
    | none => r1
  match mr with
  | some c => dictInsert "risk" (.str c.asString) r2
  | none => r2

/-- The degraded branch of `CheckIP` taken when `json_block` is falsy:
regex-scrape `ip`, `score`, `risk` from the raw page text, or report
`no_json_block_found`. -/
def fallbackScrape (ip : String) (text : List Char) : RDict :=
  let mi := searchKV ("ip".toList) text
  let ms := searchKV ("score".toList) text
  let mr := searchKV ("risk".toList) text
  if mi.isSome || ms.isSome || mr.isSome then fbDict ip mi ms mr
  else [("ip", .str ip), ("error", .str "no_json_block_found")]

/-- The parse-failure record, with the first 200 characters of the
sanitized candidate (`json_block[:200]`). -/
def parseFailedRec (ip : String) (block : List Char) : RDict :=
  [("ip", .str ip), ("error", .str "json_parse_failed"),
   ("raw", .str (block.take 200).asString)]

/-- The success branch of `CheckIP` on a parsed dict `fs`: promote `ip`
(defaulting to the queried address), `score` and `risk` if present, copy
the allow-listed auxiliary fields, and attach the full parsed object as
`_raw_parsed`. -/
def successOut (ip : String) (fs : List (String × Json)) : RDict :=
  let out0 : RDict := [("ip", (dictGet fs "ip").getD (.str ip))]
  let out1 := match dictGet fs "score" with
    | some v => dictInsert "score" v out0
    | none => out0
  let out2 := match dictGet fs "risk" with
    | some v => dictInsert "risk" v out1
    | none => out1
  let out3 := extraKeys.foldl (fun o k =>
    match dictGet fs k with
    | some v => dictInsert k v o
    | none => o) out2
  dictInsert "_raw_parsed" (.obj fs) out3

/-- Model of `CheckIP` from the point where the page text is in hand
(everything after `_fetch_page` returns), in the `Except` monad: an
`.error` would be an exception escaping to the caller. -/
def checkBodyE (ip : String) (text : List Char) : Except String RDict :=
  match extract_json_block_from_text text with
  | none => .ok (fallbackScrape ip text)
  | some block =>
    -- `if not json_block:` — an empty extracted string is falsy too.
    if block.isEmpty then .ok (fallbackScrape ip text)
    else
      match safe_json_loads block with
      | none => .ok (parseFailedRec ip block)
      | some parsed =>
        -- `if not parsed:` — a successfully parsed falsy value (e.g. an
        -- empty object) also takes the parse-failure branch.
        if jsonFalsy parsed then .ok (parseFailedRec ip block)
        else
          match pyGetD parsed "ip" (.str ip) with
          | .error e => .error e
          | .ok ipv =>
            match pyContains parsed "score" with
            | .error e => .error e
            | .ok hasScore =>
              match
                (if hasScore then
                  match pyGetD parsed "score" .null with
                  | .error e => .error e
                  | .ok v => .ok (dictInsert "score" v [("ip", ipv)])
                else .ok [("ip", ipv)] : Except String RDict) with
              | .error e => .error e
              | .ok out1 =>
                match pyContains parsed "risk" with
                | .error e => .error e
                | .ok hasRisk =>
                  match
                    (if hasRisk then
                      match pyGetD parsed "risk" .null with
                      | .error e => .error e
                      | .ok v => .ok (dictInsert "risk" v out1)
                    else .ok out1 : Except String RDict) with
                  | .error e => .error e
                  | .ok out2 =>
                    match extrasLoop parsed extraKeys out2 with
                    | .error e => .error e
                    | .ok out3 => .ok (dictInsert "_raw_parsed" parsed out3)

/-- Total wrapper of `checkBodyE`; `checkBodyE_ok` shows the error default
is never taken. -/
def checkBodyCore (ip : String) (text : List Char) : RDict :=
  match checkBodyE ip text with
  | .ok d => d
  | .error _ => []

/-- String-level entry point for the post-fetch part of `CheckIP`. -/
def checkBody (ip text : String) : RDict :=
  checkBodyCore ip text.toList

/-! ### `CheckIP` with the fetch, and the CLI dispatcher -/

/-- The default user-agent table `_DEFAULT_USER_AGENTS`. -/
def defaultUserAgents : List String :=
  ["Mozilla/5.0 (Windows NT 10.0; Win64; x64) AppleWebKit/537.36 (KHTML, like Gecko) Chrome/132.0.0.0 Safari/537.3",
   "Mozilla/5.0 (Macintosh; Intel Mac OS X 10_15_7) AppleWebKit/605.1.15 (KHTML, like Gecko) Version/18.1.1 Safari/605.1.1",
   "Mozilla/5.0 (X11; Linux x86_64) AppleWebKit/537.36 (KHTML, like Gecko) Chrome/120.0.0.0 Safari/537.36"]

/-- Model of `_choose_user_agent`: `random.choice` over the user list when
it is truthy (non-empty), over the defaults otherwise; the randomness is
an oracle index `k`. -/
def choose_user_agent (agents : List String) (k : Nat) : String :=
  if agents.isEmpty then defaultUserAgents.getD (k % defaultUserAgents.length) ""
  else agents.getD (k % agents.length) ""

/-- Model of `CheckIP`: choose a user agent, fetch (the network is an
oracle `fetch` taking the queried ip and the chosen agent; `.error e`
models a raised `requests.RequestException` with message `e`), then hand
the body to the extraction path. -/
def CheckIP (ip : String) (agents : List String) (k : Nat)
    (fetch : String → String → Except String String) : RDict :=
  match fetch ip (choose_user_agent agents k) with
  | .error e => [("ip", .str ip), ("error", .str ("http_error: " ++ e))]
  | .ok text => checkBody ip text

/-- One collected entry of `Start`'s result loop: `fut.result()` either
returns the task's dict or raises, in which case the handler substitutes
`{"ip": ip, "error": "exception: ..."}` for that task's ip. -/
def collectOne (ips : List String) (outcome : Nat → Except String RDict)
    (i : Nat) : RDict :=
  match outcome i with
  | .ok d => d
  | .error e => [("ip", .str (ips.getD i "")), ("error", .str ("exception: " ++ e))]

/-- Model of `Start`'s collection loop: `futures` maps one distinct
`Future` per submitted task (tasks are indexed by submission position, so
duplicate IPs stay distinct), and `as_completed` yields every future
exactly once in an arbitrary completion order, modelled as a permutation
`order` of the task indices. -/
def collectResults (ips : List String) (outcome : Nat → Except String RDict)
    (order : List Nat) : List RDict :=
  order.map (collectOne ips outcome)

/-! ### Synthetic round-trip inputs

For the round-trip property a page text is built as the anchor phrase
followed by `{"ip":"v1","score":"v2","risk":"v3"}`.  The sanitization
passes are only guaranteed to leave such an object intact when the field
values avoid the characters those passes rewrite; `valueSafe` captures a
sufficient such class. -/

/-- Does the list start with three dots anywhere? -/
def hasTriDot : List Char → Bool
  | [] => false
  | c :: r => triAt c r || hasTriDot r

/-- Does the list contain two adjacent slashes? -/
def hasDblSlash : List Char → Bool
  | [] => false
  | c :: r => dblAt c r || hasDblSlash r

/-- Characters that none of the extraction or sanitization stages treat
specially: printable, not whitespace, and none of `"`, `\`, `{`, `}`,
`]`, `<`. -/
def plainCharOk (c : Char) : Bool :=
  !(c = '"' || c = '\\' || c = lbrace || c = rbrace || c = ']' || c = '<') &&
    !isReWs c && decide (32 ≤ c.toNat)

/-- A field value the pipeline transports verbatim: plain characters with
no `...` run (eaten by the ellipsis strip) and no `//` (eaten by the
comment strip). -/
def valueSafe (v : List Char) : Bool :=
  v.all plainCharOk && !hasTriDot v && !hasDblSlash v

/-- Is the head of the list (if any) neither `k` nor whitespace? -/
def headSafe (k : Char) : List Char → Bool
  | [] => true
  | c :: _ => !(c = k || isReWs c)

/-- Sufficient condition for `rtcGo k` to be the identity: every comma is
followed by a character that is neither `k` nor whitespace. -/
def commaSafeB (k : Char) : List Char → Bool
  | [] => true
  | c :: r => (if c = ',' then headSafe k r else true) && commaSafeB k r

/-- The part of `{"ip":"v1","score":"v2","risk":"v3"}` strictly between
the outer braces. -/
def midChars (v1 v2 v3 : List Char) : List Char :=
  ['"', 'i', 'p', '"', ':', '"'] ++ v1 ++
    ['"', ',', '"', 's', 'c', 'o', 'r', 'e', '"', ':', '"'] ++ v2 ++
    ['"', ',', '"', 'r', 'i', 's', 'k', '"', ':', '"'] ++ v3 ++ ['"']

/-- The synthetic JSON object `{"ip":"v1","score":"v2","risk":"v3"}`. -/
def objChars (v1 v2 v3 : List Char) : List Char :=
  lbrace :: (midChars v1 v2 v3 ++ [rbrace])

/-! ## Lemma layer -/

/-! ### Dictionary lemmas -/

theorem dictGet_insert (k k' : String) (v : Json) (d : RDict) :
    dictGet (dictInsert k v d) k' = if k' = k then some v else dictGet d k' := by
  induction d with
  | nil =>
    by_cases h : k' = k
    · subst h; simp [dictInsert, dictGet]
    · have h2 : ¬k = k' := fun e => h e.symm
      simp [dictInsert, dictGet, h, h2]
  | cons kv rest ih =>
    obtain ⟨k0, v0⟩ := kv
    by_cases h0 : k0 = k
    · subst h0
      by_cases h : k' = k0
      · subst h; simp [dictInsert, dictGet]
      · have h2 : ¬k0 = k' := fun e => h e.symm
        simp [dictInsert, dictGet, h, h2]
    · by_cases h : k0 = k'
      · subst h
        have h2 : ¬k0 = k := h0
        have h3 : ¬k0 = k := h0
        simp [dictInsert, dictGet, h2]
      · by_cases h5 : k' = k
        · subst h5; simp [dictInsert, dictGet, h0, h, ih]
        · simp [dictInsert, dictGet, h0, h, h5, ih]

/-! ### Search lemmas -/

theorem isPrefixOf_append_self (l t : List Char) : l.isPrefixOf (l ++ t) = true := by
  induction l with
  | nil => simp [List.isPrefixOf]
  | cons c r ih => simp [List.isPrefixOf, ih]

theorem findSubIdx_of_startsWith (pat cs : List Char) (h : pat.isPrefixOf cs = true) :
    findSubIdx pat cs = some 0 := by
  cases cs with
  | nil => simp [findSubIdx, h]
  | cons c r => simp [findSubIdx, h]

theorem findCharIdx_cons_self (t : Char) (r : List Char) :
    findCharIdx t (t :: r) = some 0 := by
  simp [findCharIdx]

theorem findCharIdx_append_of_not_mem (t : Char) (xs ys : List Char)
    (h : ∀ c ∈ xs, c ≠ t) :
    findCharIdx t (xs ++ ys) = (findCharIdx t ys).map (· + xs.length) := by
  induction xs with
  | nil => cases h' : findCharIdx t ys <;> simp [h']
  | cons c r ih =>
    have hc : c ≠ t := h c (by simp)
    have hr : ∀ c ∈ r, c ≠ t := fun c hm => h c (by simp [hm])
    cases h' : findCharIdx t ys with
    | none => simp [findCharIdx, hc, ih hr, h']
    | some j => simp [findCharIdx, hc, ih hr, h', Nat.add_assoc, Nat.add_comm 1]

theorem findCharIdx_drop (t : Char) (cs : List Char) (j : Nat)
    (h : findCharIdx t cs = some j) : ∃ r, cs.drop j = t :: r := by
  induction cs generalizing j with
  | nil => simp [findCharIdx] at h
  | cons c r ih =>
    by_cases hc : c = t
    · subst hc
      simp [findCharIdx] at h
      subst h
      exact ⟨r, rfl⟩
    · simp [findCharIdx, hc] at h
      obtain ⟨j0, hj0, rfl⟩ := h
      obtain ⟨r2, hr2⟩ := ih j0 hj0
      exact ⟨r2, by simpa using hr2⟩

/-! ### Balanced-scan lemmas -/

theorem scanBal_pos (cs : List Char) (d : Int) (n : Nat)
    (h : scanBal cs d = some n) : 1 ≤ n := by
  induction cs generalizing d n with
  | nil => simp [scanBal] at h
  | cons c r ih =>
    simp only [scanBal] at h
    split at h
    · obtain ⟨k, -, hk⟩ := Option.map_eq_some'.mp h
      omega
    · split at h
      · split at h
        · simp only [Option.some.injEq] at h
          omega
        · obtain ⟨k, -, hk⟩ := Option.map_eq_some'.mp h
          omega
      · obtain ⟨k, -, hk⟩ := Option.map_eq_some'.mp h
        omega

theorem scanBal_nobrace (xs ys : List Char)
    (h : ∀ c ∈ xs, c ≠ lbrace ∧ c ≠ rbrace) :
    scanBal (xs ++ rbrace :: ys) 1 = some (xs.length + 1) := by
  induction xs with
  | nil =>
    show scanBal (rbrace :: ys) 1 = some 1
    have h1 : ¬(rbrace = lbrace) := by decide
    have h2 : (1 : Int) - 1 = 0 := by norm_num
    simp [scanBal, h1, h2]
  | cons c r ih =>
    have hc := h c (by simp)
    have hr : ∀ c ∈ r, c ≠ lbrace ∧ c ≠ rbrace := fun c hm => h c (by simp [hm])
    have : scanBal (c :: (r ++ rbrace :: ys)) 1 =
        (scanBal (r ++ rbrace :: ys) 1).map (· + 1) := by
      simp [scanBal, hc.1, hc.2]
    simp only [List.cons_append, this, ih hr, Option.map_some']
    simp [Nat.add_comm, Nat.add_assoc, Nat.add_left_comm]

/-! ### Head preservation through sanitization

Each sanitization pass maps a list starting with `{` to a list starting
with `{`, so an extracted block is never the empty string (relevant
because `if not json_block:` would treat an empty extraction as missing). -/

theorem stripTags_cons_lbrace (r : List Char) :
    stripTags (lbrace :: r) = lbrace :: stripTagsGo r none := by
  have hne : ¬(lbrace = '<') := by decide
  simp [stripTags, stripTagsGo, hne]

theorem removeDots_cons_lbrace (r : List Char) :
    removeDots (lbrace :: r) = lbrace :: removeDots r := by
  match r with
  | [] => rfl
  | [d] => rfl
  | d :: e :: r2 => rfl

theorem stripComments_cons_lbrace (r : List Char) :
    stripComments (lbrace :: r) = lbrace :: stripComments r := rfl

theorem rtcGo_cons_lbrace (k : Char) (r : List Char) :
    rtcGo k (lbrace :: r) none = lbrace :: rtcGo k r none := by
  have hne : ¬(lbrace = ',') := by decide
  simp [rtcGo, hne]

theorem sanitize_cons_lbrace (r : List Char) :
    ∃ r2, sanitize (lbrace :: r) = lbrace :: r2 := by
  rw [sanitize, stripTags_cons_lbrace, removeDots_cons_lbrace,
    stripComments_cons_lbrace, rtcBrace, rtcGo_cons_lbrace, rtcBracket,
    rtcGo_cons_lbrace]
  exact ⟨_, rfl⟩

theorem rawBlockFrom_head (rest raw : List Char)
    (h : rawBlockFrom rest = some raw) : ∃ r, raw = lbrace :: r := by
  unfold rawBlockFrom at h
  cases hf : findCharIdx lbrace rest with
  | none => simp [hf] at h
  | some j =>
    obtain ⟨tl, htl⟩ := findCharIdx_drop lbrace rest j hf
    cases hs : scanBal (rest.drop j) 0 with
    | none => simp [hf, hs] at h
    | some n =>
      have hn := scanBal_pos _ _ _ hs
      obtain ⟨m, rfl⟩ : ∃ m, n = m + 1 := ⟨n - 1, by omega⟩
      simp only [hf, hs, Option.some.injEq] at h
      rw [htl] at h
      exact ⟨tl.take m, by simp [← h]⟩

theorem extract_head (cs b : List Char)
    (h : extract_json_block_from_text cs = some b) :
    ∃ r, b = lbrace :: r := by
  unfold extract_json_block_from_text at h
  obtain ⟨raw, hraw, hsan⟩ := Option.map_eq_some'.mp h
  obtain ⟨r0, rfl⟩ := rawBlockFrom_head _ raw hraw
  obtain ⟨r2, hr2⟩ := sanitize_cons_lbrace r0
  exact ⟨r2, by rw [← hsan, hr2]⟩

theorem extract_ne_nil (cs b : List Char)
    (h : extract_json_block_from_text cs = some b) : b ≠ [] := by
  obtain ⟨r, rfl⟩ := extract_head cs b h
  simp

/-! ### Parser shape lemmas

A parse that succeeds on input whose first character is `{` yields an
object; this is what keeps `parsed.get(...)` from raising in the success
branch of `CheckIP`. -/

theorem skipWs_cons_not (c : Char) (r : List Char) (h : isJsonWs c = false) :
    skipWs (c :: r) = c :: r := by
  simp [skipWs, List.dropWhile_cons, h]

theorem parseMembers_isObj (f : Nat) (cs : List Char) (acc : List (String × Json))
    (v : Json) (rest : List Char) (h : parseMembers f cs acc = some (v, rest)) :
    ∃ fs, v = .obj fs := by
  induction f generalizing cs acc v rest with
  | zero => simp [parseMembers] at h
  | succ f ih =>
    simp only [parseMembers] at h
    repeat' split at h
    all_goals try exact ih _ _ _ _ h
    all_goals simp_all
    all_goals exact ⟨_, h.1.symm⟩

theorem parseObjBody_isObj (f : Nat) (r : List Char) (v : Json) (rest : List Char)
    (h : parseObjBody f r = some (v, rest)) : ∃ fs, v = .obj fs := by
  cases f with
  | zero => simp [parseObjBody] at h
  | succ f =>
    simp only [parseObjBody] at h
    repeat' split at h
    all_goals try exact parseMembers_isObj _ _ _ _ _ h
    all_goals simp_all
    all_goals exact ⟨_, h.1.symm⟩

theorem parseValue_isObj_of_lbrace (f : Nat) (r : List Char) (v : Json)
    (rest : List Char) (h : parseValue f (lbrace :: r) = some (v, rest)) :
    ∃ fs, v = .obj fs := by
  cases f with
  | zero => simp [parseValue] at h
  | succ f =>
    have h1 : ¬(lbrace = '"') := by decide
    simp only [parseValue, h1, if_false, if_pos rfl] at h
    exact parseObjBody_isObj _ _ _ _ h

theorem jsonLoads_isObj_of_lbrace (r : List Char) (v : Json)
    (h : jsonLoads (lbrace :: r) = some v) : ∃ fs, v = .obj fs := by
  have hws : isJsonWs lbrace = false := by decide
  simp only [jsonLoads, skipWs_cons_not _ _ hws] at h
  split at h
  · rename_i p hp
    split at h
    · obtain ⟨fs, hfs⟩ := parseValue_isObj_of_lbrace _ _ _ _ hp
      exact ⟨fs, by simp only [Option.some.injEq] at h; rw [← h, hfs]⟩
    · exact absurd h (by simp)
  · exact absurd h (by simp)

theorem quoteRepl_cons_lbrace (r : List Char) :
    quoteRepl (lbrace :: r) = lbrace :: quoteRepl r := by
  have : ¬(lbrace = squote) := by decide
  simp [quoteRepl, this]

theorem safeLoads_isObj_of_lbrace (r : List Char) (p : Json)
    (h : safe_json_loads (lbrace :: r) = some p) : ∃ fs, p = .obj fs := by
  simp only [safe_json_loads] at h
  split at h
  · rename_i v hv
    obtain ⟨fs, hfs⟩ := jsonLoads_isObj_of_lbrace _ _ hv
    exact ⟨fs, by simp only [Option.some.injEq] at h; rw [← h, hfs]⟩
  · rw [quoteRepl_cons_lbrace] at h
    exact jsonLoads_isObj_of_lbrace _ _ h

/-! ### Branch lemmas for `checkBodyE` -/

theorem checkBodyE_fallback (ip : String) (text : List Char)
    (hx : extract_json_block_from_text text = none) :
    checkBodyE ip text = .ok (fallbackScrape ip text) := by
  simp [checkBodyE, hx]

theorem checkBodyE_parse_failed (ip : String) (text block : List Char)
    (hx : extract_json_block_from_text text = some block)
    (hp : ∀ p, safe_json_loads block = some p → jsonFalsy p = true) :
    checkBodyE ip text = .ok (parseFailedRec ip block) := by
  obtain ⟨r, rfl⟩ := extract_head _ _ hx
  simp only [checkBodyE, hx]
  have hne : (lbrace :: r).isEmpty = false := rfl
  rw [hne]
  simp only [Bool.false_eq_true, if_false]
  split
  · rfl
  · rename_i p hp2
    rw [hp p hp2]
    simp

theorem extrasLoop_obj (fs : List (String × Json)) (ks : List String) (o : RDict) :
    extrasLoop (.obj fs) ks o =
    .ok (ks.foldl (fun o k =>
      match dictGet fs k with
      | some v => dictInsert k v o
      | none => o) o) := by
  induction ks generalizing o with
  | nil => rfl
  | cons k ks ih =>
    cases hk : dictGet fs k with
    | none => simp [extrasLoop, pyContains, pyIndex, hk, ih]
    | some v => simp [extrasLoop, pyContains, pyIndex, hk, ih]

theorem checkBodyE_success (ip : String) (text block : List Char)
    (fs : List (String × Json))
    (hx : extract_json_block_from_text text = some block)
    (hp : safe_json_loads block = some (.obj fs))
    (ht : jsonFalsy (.obj fs) = false) :
    checkBodyE ip text = .ok (successOut ip fs) := by
  obtain ⟨r, rfl⟩ := extract_head _ _ hx
  simp only [checkBodyE, hx, List.isEmpty_cons, Bool.false_eq_true, if_false, hp, ht]
  cases hsc : dictGet fs "score" with
  | none =>
    cases hrk : dictGet fs "risk" with
    | none => simp [pyGetD, pyContains, hsc, hrk, extrasLoop_obj, successOut]
    | some vr => simp [pyGetD, pyContains, hsc, hrk, extrasLoop_obj, successOut]
  | some vs =>
    cases hrk : dictGet fs "risk" with
    | none => simp [pyGetD, pyContains, hsc, hrk, extrasLoop_obj, successOut]
    | some vr => simp [pyGetD, pyContains, hsc, hrk, extrasLoop_obj, successOut]

/-- Every path of the extraction body terminates with `.ok`: the only
potentially raising operations (`parsed.get`, `in`, `parsed[...]`) are
reached only with a parsed dict in hand. -/
theorem checkBodyE_ok (ip : String) (text : List Char) :
    ∃ d, checkBodyE ip text = .ok d := by
  cases hx : extract_json_block_from_text text with
  | none => exact ⟨_, checkBodyE_fallback ip text hx⟩
  | some block =>
    cases hp : safe_json_loads block with
    | none =>
      refine ⟨_, checkBodyE_parse_failed ip text block hx ?_⟩
      intro p hp2
      rw [hp] at hp2
      exact absurd hp2 (by simp)
    | some p =>
      obtain ⟨r, rfl⟩ := extract_head _ _ hx
      obtain ⟨fs, rfl⟩ := safeLoads_isObj_of_lbrace _ _ hp
      cases ht : jsonFalsy (.obj fs) with
      | true =>
        refine ⟨_, checkBodyE_parse_failed ip text _ hx ?_⟩
        intro p hp2
        rw [hp] at hp2
        simp only [Option.some.injEq] at hp2
        rw [← hp2]
        exact ht
      | false => exact ⟨_, checkBodyE_success ip text _ fs hx hp ht⟩

theorem checkBodyCore_eq (ip : String) (text : List Char) :
    checkBodyE ip text = .ok (checkBodyCore ip text) := by
  obtain ⟨d, hd⟩ := checkBodyE_ok ip text
  simp [checkBodyCore, hd]

theorem checkBodyCore_fallback (ip : String) (text : List Char)
    (hx : extract_json_block_from_text text = none) :
    checkBodyCore ip text = fallbackScrape ip text := by
  simp [checkBodyCore, checkBodyE_fallback ip text hx]

theorem checkBodyCore_parse_failed (ip : String) (text block : List Char)
    (hx : extract_json_block_from_text text = some block)
    (hp : ∀ p, safe_json_loads block = some p → jsonFalsy p = true) :
    checkBodyCore ip text = parseFailedRec ip block := by
  simp [checkBodyCore, checkBodyE_parse_failed ip text block hx hp]

theorem checkBodyCore_success (ip : String) (text block : List Char)
    (fs : List (String × Json))
    (hx : extract_json_block_from_text text = some block)
    (hp : safe_json_loads block = some (.obj fs))
    (ht : jsonFalsy (.obj fs) = false) :
    checkBodyCore ip text = successOut ip fs := by
  simp [checkBodyCore, checkBodyE_success ip text block fs hx hp ht]

/-! ### Field access on the result shapes -/

theorem fbDict_get_error (ip : String) (mi ms mr : Option (List Char)) :
    dictGet (fbDict ip mi ms mr) "error" = none := by
  cases mi <;> cases ms <;> cases mr <;>
    simp [fbDict, dictGet_insert, dictGet]

theorem fbDict_get_ip (ip : String) (mi ms mr : Option (List Char)) :
    dictGet (fbDict ip mi ms mr) "ip" =
      some (.str (match mi with | some c => c.asString | none => ip)) := by
  cases mi <;> cases ms <;> cases mr <;>
    simp [fbDict, dictGet_insert, dictGet]

theorem dictGet_extras_foldl (fs : List (String × Json)) (ks : List String)
    (o : RDict) (key : String) (hk : ∀ k ∈ ks, k ≠ key) :
    dictGet (ks.foldl (fun o k =>
      match dictGet fs k with
      | some v => dictInsert k v o
      | none => o) o) key = dictGet o key := by
  induction ks generalizing o with
  | nil => rfl
  | cons k ks ih =>
    have h1 : k ≠ key := hk k (by simp)
    have h2 : ∀ k ∈ ks, k ≠ key := fun k hm => hk k (by simp [hm])
    have hkey : ¬(key = k) := fun e => h1 e.symm
    cases hv : dictGet fs k with
    | none => simp only [List.foldl_cons, hv]; exact ih _ h2
    | some v =>
      simp only [List.foldl_cons, hv]
      rw [ih _ h2, dictGet_insert, if_neg hkey]

theorem successOut_get_error (ip : String) (fs : List (String × Json)) :
    dictGet (successOut ip fs) "error" = none := by
  unfold successOut
  rw [dictGet_insert, if_neg (by decide)]
  rw [dictGet_extras_foldl _ _ _ _ (by decide)]
  cases hsc : dictGet fs "score" <;> cases hrk : dictGet fs "risk" <;>
    simp [dictGet_insert, dictGet]

theorem successOut_get_ip (ip : String) (fs : List (String × Json)) :
    dictGet (successOut ip fs) "ip" =
      some ((dictGet fs "ip").getD (.str ip)) := by
  unfold successOut
  rw [dictGet_insert, if_neg (by decide)]
  rw [dictGet_extras_foldl _ _ _ _ (by decide)]
  cases hsc : dictGet fs "score" <;> cases hrk : dictGet fs "risk" <;>
    simp [dictGet_insert, dictGet]

theorem successOut_get_score (ip : String) (fs : List (String × Json))
    (hsc : dictGet fs "score" = some v) :
    dictGet (successOut ip fs) "score" = some v := by
  unfold successOut
  rw [dictGet_insert, if_neg (by decide)]
  rw [dictGet_extras_foldl _ _ _ _ (by decide)]
  rw [hsc]
  cases hrk : dictGet fs "risk" <;> simp [dictGet_insert, dictGet]

theorem successOut_get_risk (ip : String) (fs : List (String × Json))
    (hrk : dictGet fs "risk" = some v) :
    dictGet (successOut ip fs) "risk" = some v := by
  unfold successOut
  rw [dictGet_insert, if_neg (by decide)]
  rw [dictGet_extras_foldl _ _ _ _ (by decide)]
  rw [hrk]
  cases hsc : dictGet fs "score" <;> simp [dictGet_insert, dictGet]

/-! ### Fallback regex lemmas -/

theorem kvMatchAt_ne_nil (key cs cap : List Char)
    (h : kvMatchAt key cs = some cap) : cap ≠ [] := by
  unfold kvMatchAt at h
  split at h
  · dsimp only at h
    split at h
    · split at h
      · split at h
        · simp at h
        · split at h
          · simp at h
          · simp only [Option.some.injEq] at h
            subst h
            assumption
      · simp at h
    · simp at h
  · simp at h

theorem searchKV_ne_nil (key cs cap : List Char)
    (h : searchKV key cs = some cap) : cap ≠ [] := by
  induction cs with
  | nil => simp [searchKV] at h
  | cons c r ih =>
    simp only [searchKV] at h
    split at h
    · rename_i cap2 hm
      simp only [Option.some.injEq] at h
      exact h ▸ kvMatchAt_ne_nil _ _ _ hm
    · exact ih h

theorem asString_ne_empty (l : List Char) (h : l ≠ []) : l.asString ≠ "" := by
  cases l with
  | nil => exact absurd rfl h
  | cons c r =>
    intro he
    have : (c :: r) = [] := by
      have := congrArg String.data he
      simp [List.asString] at this
    simp at this

/-! ## Claim theorems -/

/-- C1: for every non-empty input list of IP strings (duplicates allowed,
not deduplicated), the batch produces exactly one result per input IP: for
any task outcomes and any completion order (a permutation of the task
indices, one distinct future per submission), the collected result list
has the same length as the input list. -/
theorem c1_result_count_eq_input_count (ips : List String)
    (outcome : Nat → Except String RDict) (order : List Nat)
    (hperm : order.Perm (List.range ips.length)) (hne : ips ≠ []) :
    (collectResults ips outcome order).length = ips.length := by
  simp [collectResults, hperm.length_eq]

/-- Witness for C1 at a concrete duplicate-containing input and a
non-submission completion order. -/
theorem c1_result_count_eq_input_count_witness :
    [1, 0].Perm (List.range (["1.1.1.1", "1.1.1.1"] : List String).length) ∧
    (["1.1.1.1", "1.1.1.1"] : List String) ≠ [] ∧
    (collectResults ["1.1.1.1", "1.1.1.1"]
      (fun _ => .ok [("ip", .str "1.1.1.1")]) [1, 0]).length =
      (["1.1.1.1", "1.1.1.1"] : List String).length :=
  ⟨by decide, by simp,
   c1_result_count_eq_input_count _ _ _ (by decide) (by simp)⟩

/-- C3: for every queried ip and page text, the extraction path never
raises: the `Except`-level body always ends in `.ok`, and the returned
dict is the one `checkBodyCore` yields. -/
theorem c3_extraction_path_never_raises (ip : String) (text : List Char) :
    ∃ d, checkBodyE ip text = .ok d ∧ checkBodyCore ip text = d := by
  obtain ⟨d, hd⟩ := checkBodyE_ok ip text
  exact ⟨d, hd, by simp [checkBodyCore, hd]⟩

/-- C8: any result dict of the extraction path that carries an `error`
key carries none of `score`, `risk`, `_raw_parsed`, and its keys are
among `ip`, `error`, `raw`. -/
theorem c8_error_excludes_extracted_data (ip : String) (text : List Char)
    (e : Json) (h : dictGet (checkBodyCore ip text) "error" = some e) :
    dictGet (checkBodyCore ip text) "score" = none ∧
    dictGet (checkBodyCore ip text) "risk" = none ∧
    dictGet (checkBodyCore ip text) "_raw_parsed" = none ∧
    ∀ kv ∈ checkBodyCore ip text, kv.1 = "ip" ∨ kv.1 = "error" ∨ kv.1 = "raw" := by
  cases hx : extract_json_block_from_text text with
  | none =>
    rw [checkBodyCore_fallback ip text hx] at h ⊢
    unfold fallbackScrape at h ⊢
    by_cases hc : ((searchKV "ip".toList text).isSome ||
        (searchKV "score".toList text).isSome ||
        (searchKV "risk".toList text).isSome) = true
    · rw [if_pos hc] at h
      rw [fbDict_get_error] at h
      exact absurd h (by simp)
    · rw [if_neg hc] at h ⊢
      refine ⟨by simp [dictGet], by simp [dictGet], by simp [dictGet], ?_⟩
      intro kv hkv
      simp only [List.mem_cons, List.not_mem_nil, or_false] at hkv
      rcases hkv with rfl | rfl <;> simp
  | some block =>
    have hfail : (∀ p, safe_json_loads block = some p → jsonFalsy p = true) →
        dictGet (checkBodyCore ip text) "score" = none ∧
        dictGet (checkBodyCore ip text) "risk" = none ∧
        dictGet (checkBodyCore ip text) "_raw_parsed" = none ∧
        ∀ kv ∈ checkBodyCore ip text,
          kv.1 = "ip" ∨ kv.1 = "error" ∨ kv.1 = "raw" := by
      intro hp
      rw [checkBodyCore_parse_failed ip text block hx hp]
      unfold parseFailedRec
      refine ⟨by simp [dictGet], by simp [dictGet], by simp [dictGet], ?_⟩
      intro kv hkv
      simp only [List.mem_cons, List.not_mem_nil, or_false] at hkv
      rcases hkv with rfl | rfl | rfl <;> simp
    cases hp : safe_json_loads block with
    | none =>
      exact hfail (fun p hp2 => absurd hp2 (by rw [hp]; simp))
    | some p =>
      obtain ⟨r, rfl⟩ := extract_head _ _ hx
      obtain ⟨fs, rfl⟩ := safeLoads_isObj_of_lbrace _ _ hp
      cases ht : jsonFalsy (.obj fs) with
      | true =>
        refine hfail (fun p hp2 => ?_)
        rw [hp] at hp2
        simp only [Option.some.injEq] at hp2
        rw [← hp2]
        exact ht
      | false =>
        rw [checkBodyCore_success ip text _ fs hx hp ht] at h
        rw [successOut_get_error] at h
        exact absurd h (by simp)

/-- Witness for C8 at a page with no block and no regex match. -/
theorem c8_error_excludes_extracted_data_witness :
    dictGet (checkBodyCore "1.2.3.4" "hello".toList) "error" =
      some (.str "no_json_block_found") ∧
    (dictGet (checkBodyCore "1.2.3.4" "hello".toList) "score" = none ∧
     dictGet (checkBodyCore "1.2.3.4" "hello".toList) "risk" = none ∧
     dictGet (checkBodyCore "1.2.3.4" "hello".toList) "_raw_parsed" = none ∧
     ∀ kv ∈ checkBodyCore "1.2.3.4" "hello".toList,
       kv.1 = "ip" ∨ kv.1 = "error" ∨ kv.1 = "raw") :=
  ⟨rfl, c8_error_excludes_extracted_data "1.2.3.4" "hello".toList
    (.str "no_json_block_found") rfl⟩

/-- C9: the balanced-block scanner counts braces without regard to
string context: on the page `{"a":"}"}` the extracted candidate stops at
the `}` inside the string value, a strict prefix of the full object. -/
theorem c9_scanner_ignores_string_context :
    extract_json_block_from_text "\x7b\"a\":\"\x7d\"\x7d".toList =
      some "\x7b\"a\":\"\x7d".toList ∧
    "\x7b\"a\":\"\x7d".toList ≠ "\x7b\"a\":\"\x7d\"\x7d".toList ∧
    "\x7b\"a\":\"\x7d".toList.isPrefixOf "\x7b\"a\":\"\x7d\"\x7d".toList = true := by
  refine ⟨by decide, by decide, by decide⟩

/-- C10: the chosen user agent influences only the fetch: when the fetch
outcome does not depend on the agent, the result of `CheckIP` is the same
whatever agent list is supplied and whatever random choice is made. -/
theorem c10_user_agent_noninterference (ip : String) (a1 a2 : List String)
    (k1 k2 : Nat) (fetch : String → String → Except String String)
    (h : ∀ u v : String, fetch ip u = fetch ip v) :
    CheckIP ip a1 k1 fetch = CheckIP ip a2 k2 fetch := by
  unfold CheckIP
  rw [h (choose_user_agent a1 k1) (choose_user_agent a2 k2)]

/-- Witness for C10: empty versus singleton agent list, different random
draws, constant fetch. -/
theorem c10_user_agent_noninterference_witness :
    (∀ u v : String,
      (fun (_ _ : String) => (.ok "hello" : Except String String)) "1.2.3.4" u =
      (fun (_ _ : String) => (.ok "hello" : Except String String)) "1.2.3.4" v) ∧
    CheckIP "1.2.3.4" [] 0 (fun _ _ => .ok "hello") =
      CheckIP "1.2.3.4" ["agentA"] 7 (fun _ _ => .ok "hello") :=
  ⟨fun _ _ => rfl,
   c10_user_agent_noninterference "1.2.3.4" [] ["agentA"] 0 7
     (fun _ _ => .ok "hello") (fun _ _ => rfl)⟩

/-- C4 counterexample: on a page whose anchor is followed by an
unbalanced `{` (the depth never returns to zero), a `{` does exist at or
after the anchor position, yet the regex fallback runs — the result is the
partial record scraped by the field regexes (the ip is the regex capture
`9.9.9.9`, not the queried `1.1.1.1`).  This refutes "the fallback runs if
and only if no `{` is found at or after the anchor position". -/
theorem c4_counterexample :
    findCharIdx lbrace
      ("IP Fraud Risk API \x7b\"ip\":\"9.9.9.9\"".toList.drop
        ((findSubIdx anchorChars "IP Fraud Risk API \x7b\"ip\":\"9.9.9.9\"".toList).getD 0)) =
      some 18 ∧
    checkBody "1.1.1.1" "IP Fraud Risk API \x7b\"ip\":\"9.9.9.9\"" =
      [("ip", .str "9.9.9.9")] :=
  ⟨rfl, rfl⟩

/-- C4 amended: the regex fallback runs if and only if balanced-block
extraction fails entirely — no `{` at or after the anchor position, or the
brace depth never returns to zero.  When it runs, the result is the
partial record of the matched fields (the `ip` key always present,
overwritten by the `ip` capture when that regex matched), or the
`no_json_block_found` record when none matched.  When extraction yields a
block, the result is determined by the parse outcome alone (parse-failure
record, or promoted fields), so the fallback is never attempted for a
found-but-unparseable block. -/
theorem c4_fallback_iff_extraction_fails (ip : String) (text : List Char) :
    (extract_json_block_from_text text = none →
      ((searchKV "ip".toList text ≠ none ∨ searchKV "score".toList text ≠ none ∨
        searchKV "risk".toList text ≠ none) →
        checkBodyCore ip text =
          fbDict ip (searchKV "ip".toList text) (searchKV "score".toList text)
            (searchKV "risk".toList text)) ∧
      (searchKV "ip".toList text = none → searchKV "score".toList text = none →
        searchKV "risk".toList text = none →
        checkBodyCore ip text =
          [("ip", .str ip), ("error", .str "no_json_block_found")])) ∧
    (∀ b, extract_json_block_from_text text = some b →
      (∀ p, safe_json_loads b = some p → jsonFalsy p = true) →
      checkBodyCore ip text = parseFailedRec ip b) ∧
    (∀ b fs, extract_json_block_from_text text = some b →
      safe_json_loads b = some (.obj fs) → jsonFalsy (.obj fs) = false →
      checkBodyCore ip text = successOut ip fs) := by
  refine ⟨fun hx => ⟨fun hm => ?_, fun h1 h2 h3 => ?_⟩,
    fun b hb hp => checkBodyCore_parse_failed ip text b hb hp,
    fun b fs hb hp ht => checkBodyCore_success ip text b fs hb hp ht⟩
  · rw [checkBodyCore_fallback ip text hx]
    unfold fallbackScrape
    have hc : ((searchKV "ip".toList text).isSome ||
        (searchKV "score".toList text).isSome ||
        (searchKV "risk".toList text).isSome) = true := by
      rcases hm with h | h | h <;>
        simp only [Bool.or_eq_true, Option.isSome_iff_ne_none] <;> tauto
    rw [if_pos hc]
  · rw [checkBodyCore_fallback ip text hx]
    unfold fallbackScrape
    have hfalse : ((searchKV "ip".toList text).isSome ||
        (searchKV "score".toList text).isSome ||
        (searchKV "risk".toList text).isSome) = false := by
      rw [h1, h2, h3]
      rfl
    rw [if_neg (by rw [hfalse]; simp)]

/-- C5 counterexample: the page `IP Fraud Risk API{}` yields a balanced
block `{}` that parses successfully under the strict attempt (to the empty
object), yet the result carries `error = "json_parse_failed"` — because
the code tests `if not parsed:` and an empty dict is falsy.  This refutes
"`json_parse_failed` only if the block failed to parse under both
attempts". -/
theorem c5_counterexample :
    checkBody "1.2.3.4" "IP Fraud Risk API\x7b\x7d" =
      [("ip", .str "1.2.3.4"), ("error", .str "json_parse_failed"),
       ("raw", .str "\x7b\x7d")] ∧
    safe_json_loads "\x7b\x7d".toList = some (.obj []) :=
  ⟨rfl, rfl⟩

/-- C5 amended: the result carries `error = "json_parse_failed"` if and
only if a balanced block was extracted and either it failed to parse under
both the strict and the quote-replaced attempt, or it parsed to a falsy
value (an empty object); in that case the result also carries the first
200 characters of the sanitized candidate under the `raw` key. -/
theorem c5_parse_failed_iff (ip : String) (text : List Char) :
    (dictGet (checkBodyCore ip text) "error" = some (.str "json_parse_failed") ↔
      ∃ b, extract_json_block_from_text text = some b ∧
        (safe_json_loads b = none ∨
         ∃ p, safe_json_loads b = some p ∧ jsonFalsy p = true)) ∧
    (∀ b, extract_json_block_from_text text = some b →
      dictGet (checkBodyCore ip text) "error" = some (.str "json_parse_failed") →
      dictGet (checkBodyCore ip text) "raw" = some (.str (b.take 200).asString)) := by
  cases hx : extract_json_block_from_text text with
  | none =>
    constructor
    · rw [checkBodyCore_fallback ip text hx]
      constructor
      · intro h
        exfalso
        unfold fallbackScrape at h
        by_cases hc : ((searchKV "ip".toList text).isSome ||
            (searchKV "score".toList text).isSome ||
            (searchKV "risk".toList text).isSome) = true
        · rw [if_pos hc, fbDict_get_error] at h
          exact absurd h (by simp)
        · rw [if_neg hc] at h
          simp [dictGet] at h
      · rintro ⟨b, hb, -⟩
        exact absurd hb (by simp)
    · intro b hb
      exact absurd hb (by simp)
  | some block =>
    have hraw : checkBodyCore ip text = parseFailedRec ip block →
        dictGet (checkBodyCore ip text) "raw" =
          some (.str (block.take 200).asString) := by
      intro he
      rw [he]
      simp [parseFailedRec, dictGet]
    cases hp : safe_json_loads block with
    | none =>
      have hfail : checkBodyCore ip text = parseFailedRec ip block :=
        checkBodyCore_parse_failed ip text block hx
          (fun p hp2 => absurd hp2 (by rw [hp]; simp))
      constructor
      · constructor
        · intro _
          exact ⟨block, rfl, Or.inl hp⟩
        · intro _
          rw [hfail]
          simp [parseFailedRec, dictGet]
      · intro b hb _
        simp only [Option.some.injEq] at hb
        rw [← hb]
        exact hraw hfail
    | some p =>
      obtain ⟨r, rfl⟩ := extract_head _ _ hx
      obtain ⟨fs, rfl⟩ := safeLoads_isObj_of_lbrace _ _ hp
      cases ht : jsonFalsy (.obj fs) with
      | true =>
        have hfail : checkBodyCore ip text = parseFailedRec ip (lbrace :: r) :=
          checkBodyCore_parse_failed ip text _ hx (fun p hp2 => by
            rw [hp] at hp2
            simp only [Option.some.injEq] at hp2
            rw [← hp2]
            exact ht)
        constructor
        · constructor
          · intro _
            exact ⟨lbrace :: r, rfl, Or.inr ⟨.obj fs, hp, ht⟩⟩
          · intro _
            rw [hfail]
            simp [parseFailedRec, dictGet]
        · intro b hb _
          simp only [Option.some.injEq] at hb
          rw [← hb]
          exact hraw hfail
      | false =>
        have hsucc := checkBodyCore_success ip text _ fs hx hp ht
        constructor
        · constructor
          · intro h
            rw [hsucc, successOut_get_error] at h
            exact absurd h (by simp)
          · rintro ⟨b, hb, hbad⟩
            simp only [Option.some.injEq] at hb
            subst hb
            rcases hbad with hbad | ⟨p', hp', hf'⟩
            · rw [hp] at hbad
              exact absurd hbad (by simp)
            · rw [hp] at hp'
              simp only [Option.some.injEq] at hp'
              rw [← hp'] at hf'
              rw [ht] at hf'
              exact absurd hf' (by simp)
        · intro b hb he
          rw [hsucc, successOut_get_error] at he
          exact absurd he (by simp)

/-- C6 counterexample: with a non-empty queried ip, a page whose parsed
object carries `"ip": ""` produces a result whose `ip` field is the empty
string (the parsed value overrides the queried address unconditionally),
refuting the invariant that every result has a non-empty ip. -/
theorem c6_counterexample :
    ("1.2.3.4" : String) ≠ "" ∧
    checkBody "1.2.3.4" "IP Fraud Risk API\x7b\"ip\":\"\"\x7d" =
      [("ip", .str ""), ("_raw_parsed", .obj [("ip", .str "")])] :=
  ⟨by decide, rfl⟩

/-- C6 amended: every result of the extraction path carries an `ip` field
which is a non-empty string, provided the queried ip is non-empty and any
`ip` field of a successfully parsed object is a non-empty string (the
fallback-regex capture is non-empty by construction of the pattern). -/
theorem c6_nonempty_ip (ip : String) (text : List Char) (hip : ip ≠ "")
    (hgood : ∀ b fs v, extract_json_block_from_text text = some b →
      safe_json_loads b = some (.obj fs) → dictGet fs "ip" = some v →
      ∃ s, v = .str s ∧ s ≠ "") :
    ∃ s, dictGet (checkBodyCore ip text) "ip" = some (.str s) ∧ s ≠ "" := by
  cases hx : extract_json_block_from_text text with
  | none =>
    rw [checkBodyCore_fallback ip text hx]
    unfold fallbackScrape
    by_cases hc : ((searchKV "ip".toList text).isSome ||
        (searchKV "score".toList text).isSome ||
        (searchKV "risk".toList text).isSome) = true
    · rw [if_pos hc, fbDict_get_ip]
      cases hmi : searchKV "ip".toList text with
      | none => exact ⟨ip, by simp, hip⟩
      | some cap =>
        refine ⟨cap.asString, by simp, ?_⟩
        exact asString_ne_empty _ (searchKV_ne_nil _ _ _ hmi)
    · rw [if_neg hc]
      exact ⟨ip, by simp [dictGet], hip⟩
  | some block =>
    cases hp : safe_json_loads block with
    | none =>
      rw [checkBodyCore_parse_failed ip text block hx
        (fun p hp2 => absurd hp2 (by rw [hp]; simp))]
      exact ⟨ip, by simp [parseFailedRec, dictGet], hip⟩
    | some p =>
      obtain ⟨r, rfl⟩ := extract_head _ _ hx
      obtain ⟨fs, rfl⟩ := safeLoads_isObj_of_lbrace _ _ hp
      cases ht : jsonFalsy (.obj fs) with
      | true =>
        rw [checkBodyCore_parse_failed ip text _ hx (fun p hp2 => by
          rw [hp] at hp2
          simp only [Option.some.injEq] at hp2
          rw [← hp2]
          exact ht)]
        exact ⟨ip, by simp [parseFailedRec, dictGet], hip⟩
      | false =>
        rw [checkBodyCore_success ip text _ fs hx hp ht, successOut_get_ip]
        cases hv : dictGet fs "ip" with
        | none => exact ⟨ip, by simp, hip⟩
        | some v =>
          obtain ⟨s, rfl, hs⟩ := hgood _ _ _ hx hp hv
          exact ⟨s, by simp, hs⟩

/-- Witness for the amended C6 at a page with no block and an empty-match
fallback. -/
theorem c6_nonempty_ip_witness :
    ("1.2.3.4" : String) ≠ "" ∧
    (∃ s, dictGet (checkBodyCore "1.2.3.4" "hi there".toList) "ip" =
      some (.str s) ∧ s ≠ "") :=
  ⟨by decide,
   c6_nonempty_ip "1.2.3.4" "hi there".toList (by decide)
     (fun b fs v hb _ _ => absurd hb (by
       rw [show extract_json_block_from_text "hi there".toList = none from rfl]
       simp))⟩

/-! ### Sanitization is the identity on safe text -/

theorem plain_good (c : Char) (h : plainCharOk c = true) :
    isReWs c = false ∧ c ≠ lbrace ∧ c ≠ rbrace ∧ c ≠ ']' ∧ c ≠ '<' ∧
      c ≠ '"' ∧ c ≠ '\\' ∧ 32 ≤ c.toNat := by
  simp only [plainCharOk, Bool.and_eq_true, Bool.not_eq_true',
    Bool.or_eq_false_iff, decide_eq_true_eq, decide_eq_false_iff_not] at h
  refine ⟨?_, ?_, ?_, ?_, ?_, ?_, ?_, ?_⟩ <;> tauto

theorem stripTagsGo_id (cs : List Char) (h : ∀ c ∈ cs, c ≠ '<') :
    stripTagsGo cs none = cs := by
  induction cs with
  | nil => rfl
  | cons c r ih =>
    have hc : c ≠ '<' := h c (by simp)
    simp only [stripTagsGo, hc, if_false]
    exact congrArg _ (ih fun c hm => h c (by simp [hm]))

theorem triAt_ne (c : Char) (r : List Char) (h : c ≠ '.') : triAt c r = false := by
  simp [triAt, h]

theorem dblAt_ne (c : Char) (r : List Char) (h : c ≠ '/') : dblAt c r = false := by
  simp [dblAt, h]

theorem triAt_append (a x : Char) (v rest : List Char) (hx : x ≠ '.') :
    triAt a (v ++ x :: rest) = triAt a v := by
  match v with
  | [] => simp [triAt, hx]
  | [c] => simp [triAt, hx]
  | c :: d :: r => simp [triAt]

theorem hasTriDot_append (v rest : List Char) (x : Char) (hx : x ≠ '.') :
    hasTriDot (v ++ x :: rest) = (hasTriDot v || hasTriDot (x :: rest)) := by
  induction v with
  | nil => simp [hasTriDot]
  | cons a v' ih =>
    show (triAt a (v' ++ x :: rest) || hasTriDot (v' ++ x :: rest)) = _
    rw [triAt_append a x v' rest hx, ih]
    show _ = ((triAt a v' || hasTriDot v') || hasTriDot (x :: rest))
    rw [Bool.or_assoc]

theorem removeDots_id (cs : List Char) (h : hasTriDot cs = false) :
    removeDots cs = cs := by
  induction cs with
  | nil => rfl
  | cons c r ih =>
    have hcr : triAt c r = false ∧ hasTriDot r = false := by
      have : (triAt c r || hasTriDot r) = false := h
      simp only [Bool.or_eq_false_iff] at this
      exact this
    match r, hcr with
    | [], _ => rfl
    | [d], _ => rfl
    | d :: e :: r2, ⟨h1, h2⟩ =>
      have hcond : (c = '.' && d = '.' && e = '.') = false := by
        by_cases hc : c = '.'
        · subst hc
          simp only [triAt, decide_True, Bool.true_and] at h1
          simp only [List.take, decide_eq_true_eq] at h1
          by_cases hd : d = '.'
          · subst hd
            by_cases he : e = '.'
            · subst he; simp at h1
            · simp [he]
          · simp [hd]
        · simp [hc]
      rw [removeDots, if_neg (by simp [hcond])]
      exact congrArg _ (ih h2)

theorem dblAt_append (a x : Char) (v rest : List Char) (hx : x ≠ '/') :
    dblAt a (v ++ x :: rest) = dblAt a v := by
  match v with
  | [] => simp [dblAt, hx]
  | c :: r => simp [dblAt]

theorem hasDblSlash_append (v rest : List Char) (x : Char) (hx : x ≠ '/') :
    hasDblSlash (v ++ x :: rest) = (hasDblSlash v || hasDblSlash (x :: rest)) := by
  induction v with
  | nil => simp [hasDblSlash]
  | cons a v' ih =>
    show (dblAt a (v' ++ x :: rest) || hasDblSlash (v' ++ x :: rest)) = _
    rw [dblAt_append a x v' rest hx, ih]
    show _ = ((dblAt a v' || hasDblSlash v') || hasDblSlash (x :: rest))
    rw [Bool.or_assoc]

theorem stripComments_id (cs : List Char) (h : hasDblSlash cs = false) :
    stripComments cs = cs := by
  induction cs with
  | nil => rfl
  | cons c r ih =>
    have hcr : dblAt c r = false ∧ hasDblSlash r = false := by
      have : (dblAt c r || hasDblSlash r) = false := h
      simp only [Bool.or_eq_false_iff] at this
      exact this
    show stripCommentsGo (c :: r) false = c :: r
    simp only [stripCommentsGo, hcr.1, Bool.false_eq_true, if_false]
    exact congrArg _ (ih hcr.2)

theorem commaSafeB_tail (k c : Char) (r : List Char)
    (h : commaSafeB k (c :: r) = true) : commaSafeB k r = true := by
  have : ((if c = ',' then headSafe k r else true) && commaSafeB k r) = true := h
  simp only [Bool.and_eq_true] at this
  exact this.2

theorem rtcGo_id_aux (k : Char) (cs : List Char) (h : commaSafeB k cs = true) :
    rtcGo k cs none = cs ∧
      (headSafe k cs = true → rtcGo k cs (some []) = ',' :: cs) := by
  induction cs with
  | nil => exact ⟨rfl, fun _ => rfl⟩
  | cons c r ih =>
    have hr := commaSafeB_tail k c r h
    have hcond : (if c = ',' then headSafe k r else true) = true := by
      have : ((if c = ',' then headSafe k r else true) && commaSafeB k r) = true := h
      simp only [Bool.and_eq_true] at this
      exact this.1
    obtain ⟨P, Q⟩ := ih hr
    constructor
    · by_cases hc : c = ','
      · subst hc
        rw [if_pos rfl] at hcond
        show rtcGo k r (some []) = ',' :: r
        exact Q hcond
      · simp only [rtcGo, hc, if_false]
        exact congrArg _ P
    · intro hhead
      have hhead2 : ¬(c = k) ∧ isReWs c = false := by
        simp only [headSafe, Bool.not_eq_true', Bool.or_eq_false_iff,
          decide_eq_false_iff_not] at hhead
        exact hhead
      by_cases hc : c = ','
      · subst hc
        rw [if_pos rfl] at hcond
        show (if (',' : Char) = k then _ else
          if isReWs ',' then _ else
          if (',' : Char) = ',' then ',' :: ([] : List Char).reverse ++ rtcGo k r (some [])
          else _) = _
        rw [if_neg hhead2.1, if_neg (by rw [hhead2.2]; simp), if_pos rfl]
        simp only [List.reverse_nil, List.nil_append]
        rw [Q hcond]
        rfl
      · show (if c = k then _ else if isReWs c then _ else
          if c = ',' then _ else ',' :: ([] : List Char).reverse ++ c :: rtcGo k r none) = _
        rw [if_neg hhead2.1, if_neg (by rw [hhead2.2]; simp), if_neg hc]
        simp only [List.reverse_nil, List.nil_append]
        rw [P]
        rfl

theorem rtcGo_id (k : Char) (cs : List Char) (h : commaSafeB k cs = true) :
    rtcGo k cs none = cs :=
  (rtcGo_id_aux k cs h).1

theorem commaSafeB_append (k : Char) (xs rest : List Char)
    (hxs : ∀ c ∈ xs, isReWs c = false ∧ c ≠ k)
    (hrest : headSafe k rest = true) :
    commaSafeB k (xs ++ rest) = commaSafeB k rest := by
  induction xs with
  | nil => rfl
  | cons a xs' ih =>
    have hgood : headSafe k (xs' ++ rest) = true := by
      cases xs' with
      | nil => exact hrest
      | cons b xs2 =>
        have hb := hxs b (by simp)
        simp [headSafe, hb.1, hb.2]
    show ((if a = ',' then headSafe k (xs' ++ rest) else true) &&
      commaSafeB k (xs' ++ rest)) = _
    rw [ih (fun c hm => hxs c (by simp [hm]))]
    by_cases ha : a = ','
    · rw [if_pos ha, hgood]
      simp
    · rw [if_neg ha]
      simp

/-! ### The synthetic object survives extraction intact -/

theorem valueSafe_parts (v : List Char) (h : valueSafe v = true) :
    (∀ c ∈ v, plainCharOk c = true) ∧ hasTriDot v = false ∧
      hasDblSlash v = false := by
  simp only [valueSafe, Bool.and_eq_true, List.all_eq_true, Bool.not_eq_true'] at h
  tauto

theorem objChars_assoc (v1 v2 v3 : List Char) :
    objChars v1 v2 v3 =
      lbrace :: '"' :: 'i' :: 'p' :: '"' :: ':' :: '"' ::
        (v1 ++ ('"' :: ',' :: '"' :: 's' :: 'c' :: 'o' :: 'r' :: 'e' :: '"' :: ':' :: '"' ::
          (v2 ++ ('"' :: ',' :: '"' :: 'r' :: 'i' :: 's' :: 'k' :: '"' :: ':' :: '"' ::
            (v3 ++ ('"' :: rbrace :: [])))))) := by
  simp [objChars, midChars]

theorem hasTriDot_objChars (v1 v2 v3 : List Char) (h1 : hasTriDot v1 = false)
    (h2 : hasTriDot v2 = false) (h3 : hasTriDot v3 = false) :
    hasTriDot (objChars v1 v2 v3) = false := by
  rw [objChars_assoc]
  simp only [hasTriDot]
  rw [hasTriDot_append v1 _ '"' (by decide)]
  simp only [hasTriDot]
  rw [hasTriDot_append v2 _ '"' (by decide)]
  simp only [hasTriDot]
  rw [hasTriDot_append v3 _ '"' (by decide)]
  simp only [hasTriDot]
  simp [triAt, h1, h2, h3]

theorem hasDblSlash_objChars (v1 v2 v3 : List Char) (h1 : hasDblSlash v1 = false)
    (h2 : hasDblSlash v2 = false) (h3 : hasDblSlash v3 = false) :
    hasDblSlash (objChars v1 v2 v3) = false := by
  rw [objChars_assoc]
  simp only [hasDblSlash]
  rw [hasDblSlash_append v1 _ '"' (by decide)]
  simp only [hasDblSlash]
  rw [hasDblSlash_append v2 _ '"' (by decide)]
  simp only [hasDblSlash]
  rw [hasDblSlash_append v3 _ '"' (by decide)]
  simp only [hasDblSlash]
  simp [dblAt, h1, h2, h3]

theorem no_lt_objChars (v1 v2 v3 : List Char)
    (h1 : ∀ c ∈ v1, plainCharOk c = true) (h2 : ∀ c ∈ v2, plainCharOk c = true)
    (h3 : ∀ c ∈ v3, plainCharOk c = true) :
    ∀ c ∈ objChars v1 v2 v3, c ≠ '<' := by
  rw [objChars_assoc]
  simp only [List.forall_mem_cons, List.forall_mem_append]
  repeat' apply And.intro
  all_goals first
    | decide
    | (intro c hm; exact (plain_good c (h1 c hm)).2.2.2.2.1)
    | (intro c hm; exact (plain_good c (h2 c hm)).2.2.2.2.1)
    | (intro c hm; exact (plain_good c (h3 c hm)).2.2.2.2.1)
    | (simp; done)
    | simp

theorem nobrace_midChars (v1 v2 v3 : List Char)
    (h1 : ∀ c ∈ v1, plainCharOk c = true) (h2 : ∀ c ∈ v2, plainCharOk c = true)
    (h3 : ∀ c ∈ v3, plainCharOk c = true) :
    ∀ c ∈ midChars v1 v2 v3, c ≠ lbrace ∧ c ≠ rbrace := by
  unfold midChars
  simp only [List.forall_mem_cons, List.forall_mem_append]
  repeat' apply And.intro
  all_goals first
    | decide
    | (intro c hm; exact ⟨(plain_good c (h1 c hm)).2.1, (plain_good c (h1 c hm)).2.2.1⟩)
    | (intro c hm; exact ⟨(plain_good c (h2 c hm)).2.1, (plain_good c (h2 c hm)).2.2.1⟩)
    | (intro c hm; exact ⟨(plain_good c (h3 c hm)).2.1, (plain_good c (h3 c hm)).2.2.1⟩)
    | (simp; done)
    | simp

theorem commaSafeB_cons_ne (k c : Char) (r : List Char) (hc : c ≠ ',') :
    commaSafeB k (c :: r) = commaSafeB k r := by
  show ((if c = ',' then headSafe k r else true) && commaSafeB k r) = _
  rw [if_neg hc]
  simp

theorem commaSafeB_append_last (k : Char) (xs rest : List Char)
    (hxs : ∀ c ∈ xs, isReWs c = false ∧ c ≠ k)
    (hlast : xs.getLast? ≠ some ',') :
    commaSafeB k (xs ++ rest) = commaSafeB k rest := by
  induction xs with
  | nil => rfl
  | cons a xs' ih =>
    cases xs' with
    | nil =>
      have ha : a ≠ ',' := fun he => hlast (by simp [he])
      simp only [List.cons_append, List.nil_append]
      rw [commaSafeB_cons_ne k a rest ha]
    | cons b xs2 =>
      have hb := hxs b (by simp)
      have tail_eq : commaSafeB k ((b :: xs2) ++ rest) = commaSafeB k rest :=
        ih (fun c hm => hxs c (by simp [hm]))
          (by rw [show (b :: xs2).getLast? = (a :: b :: xs2).getLast? from
              (List.getLast?_cons_cons).symm]; exact hlast)
      by_cases ha : a = ','
      · show ((if a = ',' then headSafe k ((b :: xs2) ++ rest) else true) &&
          commaSafeB k ((b :: xs2) ++ rest)) = commaSafeB k rest
        have hgood : headSafe k ((b :: xs2) ++ rest) = true := by
          simp [headSafe, List.cons_append, hb.1, hb.2]
        rw [if_pos ha, hgood, tail_eq, Bool.true_and]
      · show ((if a = ',' then headSafe k ((b :: xs2) ++ rest) else true) &&
          commaSafeB k ((b :: xs2) ++ rest)) = commaSafeB k rest
        rw [if_neg ha, tail_eq, Bool.true_and]

theorem mid_good (v1 v2 v3 : List Char)
    (h1 : ∀ c ∈ v1, plainCharOk c = true) (h2 : ∀ c ∈ v2, plainCharOk c = true)
    (h3 : ∀ c ∈ v3, plainCharOk c = true) :
    ∀ c ∈ midChars v1 v2 v3, isReWs c = false ∧ c ≠ rbrace ∧ c ≠ ']' := by
  unfold midChars
  simp only [List.forall_mem_cons, List.forall_mem_append]
  repeat' apply And.intro
  all_goals first
    | decide
    | (intro c hm; exact ⟨(plain_good c (h1 c hm)).1, (plain_good c (h1 c hm)).2.2.1,
        (plain_good c (h1 c hm)).2.2.2.1⟩)
    | (intro c hm; exact ⟨(plain_good c (h2 c hm)).1, (plain_good c (h2 c hm)).2.2.1,
        (plain_good c (h2 c hm)).2.2.2.1⟩)
    | (intro c hm; exact ⟨(plain_good c (h3 c hm)).1, (plain_good c (h3 c hm)).2.2.1,
        (plain_good c (h3 c hm)).2.2.2.1⟩)
    | (simp; done)
    | simp

theorem midChars_getLast (v1 v2 v3 : List Char) :
    (midChars v1 v2 v3).getLast? = some '"' := by
  unfold midChars
  rw [show (['"', 'i', 'p', '"', ':', '"'] ++ v1 ++
      ['"', ',', '"', 's', 'c', 'o', 'r', 'e', '"', ':', '"'] ++ v2 ++
      ['"', ',', '"', 'r', 'i', 's', 'k', '"', ':', '"'] ++ v3 ++ ['"']) =
    ((['"', 'i', 'p', '"', ':', '"'] ++ v1 ++
      ['"', ',', '"', 's', 'c', 'o', 'r', 'e', '"', ':', '"'] ++ v2 ++
      ['"', ',', '"', 'r', 'i', 's', 'k', '"', ':', '"'] ++ v3) ++ ['"']) from rfl]
  rw [List.getLast?_concat]

theorem commaSafeB_objChars_rbrace (v1 v2 v3 : List Char)
    (h1 : ∀ c ∈ v1, plainCharOk c = true) (h2 : ∀ c ∈ v2, plainCharOk c = true)
    (h3 : ∀ c ∈ v3, plainCharOk c = true) :
    commaSafeB rbrace (objChars v1 v2 v3) = true := by
  have hmid := mid_good v1 v2 v3 h1 h2 h3
  show commaSafeB rbrace (lbrace :: (midChars v1 v2 v3 ++ [rbrace])) = true
  rw [commaSafeB_cons_ne _ _ _ (by decide)]
  rw [commaSafeB_append_last rbrace _ _ (fun c hm => ⟨(hmid c hm).1, (hmid c hm).2.1⟩)
    (by rw [midChars_getLast]; simp)]
  decide

theorem commaSafeB_objChars_rbracket (v1 v2 v3 : List Char)
    (h1 : ∀ c ∈ v1, plainCharOk c = true) (h2 : ∀ c ∈ v2, plainCharOk c = true)
    (h3 : ∀ c ∈ v3, plainCharOk c = true) :
    commaSafeB ']' (objChars v1 v2 v3) = true := by
  have hmid := mid_good v1 v2 v3 h1 h2 h3
  show commaSafeB ']' (lbrace :: (midChars v1 v2 v3 ++ [rbrace])) = true
  rw [commaSafeB_cons_ne _ _ _ (by decide)]
  rw [commaSafeB_append_last ']' _ _ (fun c hm => ⟨(hmid c hm).1, (hmid c hm).2.2⟩)
    (by rw [midChars_getLast]; simp)]
  decide

theorem sanitize_objChars (v1 v2 v3 : List Char) (h1 : valueSafe v1 = true)
    (h2 : valueSafe v2 = true) (h3 : valueSafe v3 = true) :
    sanitize (objChars v1 v2 v3) = objChars v1 v2 v3 := by
  obtain ⟨p1, t1, d1⟩ := valueSafe_parts v1 h1
  obtain ⟨p2, t2, d2⟩ := valueSafe_parts v2 h2
  obtain ⟨p3, t3, d3⟩ := valueSafe_parts v3 h3
  unfold sanitize
  rw [show stripTags (objChars v1 v2 v3) = objChars v1 v2 v3 from
    stripTagsGo_id _ (no_lt_objChars v1 v2 v3 p1 p2 p3)]
  rw [removeDots_id _ (hasTriDot_objChars v1 v2 v3 t1 t2 t3)]
  rw [stripComments_id _ (hasDblSlash_objChars v1 v2 v3 d1 d2 d3)]
  rw [show rtcBrace (objChars v1 v2 v3) = objChars v1 v2 v3 from
    rtcGo_id _ _ (commaSafeB_objChars_rbrace v1 v2 v3 p1 p2 p3)]
  exact rtcGo_id _ _ (commaSafeB_objChars_rbracket v1 v2 v3 p1 p2 p3)

theorem scanBal_objChars (v1 v2 v3 : List Char)
    (h1 : ∀ c ∈ v1, plainCharOk c = true) (h2 : ∀ c ∈ v2, plainCharOk c = true)
    (h3 : ∀ c ∈ v3, plainCharOk c = true) :
    scanBal (objChars v1 v2 v3) 0 = some (objChars v1 v2 v3).length := by
  have hmid := nobrace_midChars v1 v2 v3 h1 h2 h3
  show scanBal (lbrace :: (midChars v1 v2 v3 ++ [rbrace])) 0 = _
  have hstep : scanBal (lbrace :: (midChars v1 v2 v3 ++ [rbrace])) 0 =
      (scanBal (midChars v1 v2 v3 ++ rbrace :: []) (0 + 1)).map (· + 1) := by
    simp [scanBal]
  rw [hstep]
  have : (0 : Int) + 1 = 1 := by norm_num
  rw [this, scanBal_nobrace _ _ hmid]
  simp [objChars]

theorem extract_objChars (v1 v2 v3 : List Char) (h1 : valueSafe v1 = true)
    (h2 : valueSafe v2 = true) (h3 : valueSafe v3 = true) :
    extract_json_block_from_text (anchorChars ++ objChars v1 v2 v3) =
      some (objChars v1 v2 v3) := by
  obtain ⟨p1, -, -⟩ := valueSafe_parts v1 h1
  obtain ⟨p2, -, -⟩ := valueSafe_parts v2 h2
  obtain ⟨p3, -, -⟩ := valueSafe_parts v3 h3
  unfold extract_json_block_from_text
  rw [findSubIdx_of_startsWith _ _ (isPrefixOf_append_self _ _)]
  simp only [Option.getD_some, List.drop_zero]
  unfold rawBlockFrom
  rw [findCharIdx_append_of_not_mem lbrace anchorChars _ (by decide)]
  have hobj : findCharIdx lbrace (objChars v1 v2 v3) = some 0 :=
    findCharIdx_cons_self lbrace (midChars v1 v2 v3 ++ [rbrace])
  rw [hobj]
  simp only [Option.map_some', Nat.zero_add]
  rw [show anchorChars.length = 17 from rfl]
  rw [show (17 : Nat) = anchorChars.length from rfl, List.drop_left]
  rw [scanBal_objChars v1 v2 v3 p1 p2 p3]
  simp only [List.take_length, Option.map_some']
  rw [sanitize_objChars v1 v2 v3 h1 h2 h3]

/-! ### Parsing the synthetic object -/

theorem parseStr_safe (v rest : List Char)
    (hv : ∀ c ∈ v, c ≠ '"' ∧ c ≠ '\\' ∧ 32 ≤ c.toNat) :
    ∀ f, v.length + 1 ≤ f → parseStr f (v ++ '"' :: rest) = some (v, rest) := by
  induction v with
  | nil =>
    intro f hf
    cases f with
    | zero => omega
    | succ f' =>
      show parseStr (f' + 1) ('"' :: rest) = some ([], rest)
      simp [parseStr]
  | cons c v' ih =>
    intro f hf
    cases f with
    | zero => omega
    | succ f' =>
      have hc := hv c (by simp)
      have h3 : ¬(c.toNat < 32) := by omega
      show parseStr (f' + 1) (c :: (v' ++ '"' :: rest)) = _
      simp only [parseStr]
      rw [if_neg hc.1, if_neg hc.2.1, if_neg h3]
      rw [ih (fun c hm => hv c (by simp [hm])) f' (by
        simp only [List.length_cons] at hf
        omega)]
      rfl

theorem parseValue_str (f : Nat) (v rest : List Char)
    (hv : ∀ c ∈ v, c ≠ '"' ∧ c ≠ '\\' ∧ 32 ≤ c.toNat) :
    parseValue (f + 1) ('"' :: (v ++ '"' :: rest)) =
      some (.str v.asString, rest) := by
  have e1 : parseStr ((v ++ '"' :: rest).length + 1) (v ++ '"' :: rest) =
      some (v, rest) :=
    parseStr_safe v rest hv _ (by simp [List.length_append] <;> omega)
  simp only [parseValue, if_true, e1, Option.map_some']

theorem parseMembers_step (f : Nat) (key v rest : List Char)
    (acc : List (String × Json))
    (hkey : ∀ c ∈ key, c ≠ '"' ∧ c ≠ '\\' ∧ 32 ≤ c.toNat)
    (hv : ∀ c ∈ v, c ≠ '"' ∧ c ≠ '\\' ∧ 32 ≤ c.toNat) :
    parseMembers (f + 2) (key ++ '"' :: ':' :: '"' :: (v ++ '"' :: rest)) acc =
      (match skipWs rest with
       | c :: r4 =>
         if c = rbrace then
           some (.obj (dictInsert key.asString (.str v.asString) acc), r4)
         else if c = ',' then
           match skipWs r4 with
           | '"' :: r5 =>
             parseMembers (f + 1) r5 (dictInsert key.asString (.str v.asString) acc)
           | _ => none
         else none
       | [] => none) := by
  have e1 : parseStr ((key ++ '"' :: ':' :: '"' :: (v ++ '"' :: rest)).length + 1)
      (key ++ '"' :: ':' :: '"' :: (v ++ '"' :: rest)) =
      some (key, ':' :: '"' :: (v ++ '"' :: rest)) :=
    parseStr_safe key _ hkey _ (by simp [List.length_append] <;> omega)
  have e2 : ∀ X : List Char, skipWs (':' :: X) = ':' :: X :=
    fun X => skipWs_cons_not _ _ (by decide)
  have e3 : ∀ X : List Char, skipWs ('"' :: X) = '"' :: X :=
    fun X => skipWs_cons_not _ _ (by decide)
  have e4 : parseValue (f + 1) ('"' :: (v ++ '"' :: rest)) =
      some (.str v.asString, rest) := parseValue_str f v rest hv
  show parseMembers ((f + 1) + 1) _ _ = _
  simp only [parseMembers, e1, e2, e3, e4]

theorem asString_ip : (['i', 'p'] : List Char).asString = "ip" := rfl

theorem asString_score : (['s', 'c', 'o', 'r', 'e'] : List Char).asString = "score" := rfl

theorem asString_risk : (['r', 'i', 's', 'k'] : List Char).asString = "risk" := rfl

theorem parseMembers_three (v1 v2 v3 : List Char)
    (g1 : ∀ c ∈ v1, c ≠ '"' ∧ c ≠ '\\' ∧ 32 ≤ c.toNat)
    (g2 : ∀ c ∈ v2, c ≠ '"' ∧ c ≠ '\\' ∧ 32 ≤ c.toNat)
    (g3 : ∀ c ∈ v3, c ≠ '"' ∧ c ≠ '\\' ∧ 32 ≤ c.toNat)
    (f : Nat) (hf : 4 ≤ f) :
    parseMembers f
      (['i', 'p'] ++ '"' :: ':' :: '"' :: (v1 ++ '"' ::
        (',' :: '"' :: (['s', 'c', 'o', 'r', 'e'] ++ '"' :: ':' :: '"' :: (v2 ++ '"' ::
          (',' :: '"' :: (['r', 'i', 's', 'k'] ++ '"' :: ':' :: '"' :: (v3 ++ '"' ::
            [rbrace])))))))) [] =
      some (.obj [("ip", .str v1.asString), ("score", .str v2.asString),
        ("risk", .str v3.asString)], []) := by
  obtain ⟨f2, rfl⟩ : ∃ f2, f = f2 + 4 := ⟨f - 4, by omega⟩
  have swq : ∀ X : List Char, skipWs ('"' :: X) = '"' :: X :=
    fun X => skipWs_cons_not _ _ (by decide)
  have swc : ∀ X : List Char, skipWs (',' :: X) = ',' :: X :=
    fun X => skipWs_cons_not _ _ (by decide)
  have swr : ∀ X : List Char, skipWs (rbrace :: X) = rbrace :: X :=
    fun X => skipWs_cons_not _ _ (by decide)
  have step1 := parseMembers_step (f2 + 2) ['i', 'p'] v1
    (',' :: '"' :: (['s', 'c', 'o', 'r', 'e'] ++ '"' :: ':' :: '"' :: (v2 ++ '"' ::
      (',' :: '"' :: (['r', 'i', 's', 'k'] ++ '"' :: ':' :: '"' :: (v3 ++ '"' ::
        [rbrace]))))))
    [] (by decide) g1
  have step2 := parseMembers_step (f2 + 1) ['s', 'c', 'o', 'r', 'e'] v2
    (',' :: '"' :: (['r', 'i', 's', 'k'] ++ '"' :: ':' :: '"' :: (v3 ++ '"' ::
      [rbrace])))
    (dictInsert (['i', 'p'] : List Char).asString (.str v1.asString) [])
    (by decide) g2
  have step3 := parseMembers_step f2 ['r', 'i', 's', 'k'] v3 [rbrace]
    (dictInsert (['s', 'c', 'o', 'r', 'e'] : List Char).asString (.str v2.asString)
      (dictInsert (['i', 'p'] : List Char).asString (.str v1.asString) []))
    (by decide) g3
  show parseMembers ((f2 + 2) + 2) _ _ = _
  rw [step1]
  simp only [swq, swc, swr]
  rw [show ((f2 + 2) + 1 : Nat) = (f2 + 1) + 2 from by omega] at *
  simp only [step2]
  simp only [swq, swc, swr]
  rw [show ((f2 + 1) + 1 : Nat) = f2 + 2 from by omega] at *
  simp only [step3]
  simp only [swq, swc, swr]
  have hcr : ¬((',' : Char) = rbrace) := by decide
  simp [hcr, asString_ip, asString_score, asString_risk, dictInsert]

theorem jsonLoads_objChars (v1 v2 v3 : List Char)
    (g1 : ∀ c ∈ v1, c ≠ '"' ∧ c ≠ '\\' ∧ 32 ≤ c.toNat)
    (g2 : ∀ c ∈ v2, c ≠ '"' ∧ c ≠ '\\' ∧ 32 ≤ c.toNat)
    (g3 : ∀ c ∈ v3, c ≠ '"' ∧ c ≠ '\\' ∧ 32 ≤ c.toNat) :
    jsonLoads (objChars v1 v2 v3) =
      some (.obj [("ip", .str v1.asString), ("score", .str v2.asString),
        ("risk", .str v3.asString)]) := by
  have hsw : skipWs (objChars v1 v2 v3) = objChars v1 v2 v3 :=
    skipWs_cons_not lbrace _ (by decide)
  have hpv : ∀ (X : List Char) (n : Nat),
      parseValue (n + 1) (lbrace :: X) = parseObjBody n X :=
    fun X n => by simp [parseValue, (by decide : ¬(lbrace = '"'))]
  have hswq : ∀ X : List Char, skipWs ('"' :: X) = '"' :: X :=
    fun X => skipWs_cons_not _ _ (by decide)
  unfold jsonLoads
  rw [hsw]
  rw [show objChars v1 v2 v3 = lbrace :: (midChars v1 v2 v3 ++ [rbrace]) from rfl]
  simp only [List.length_cons, hpv]
  have hmid : midChars v1 v2 v3 ++ [rbrace] =
      '"' :: (['i', 'p'] ++ '"' :: ':' :: '"' :: (v1 ++ '"' ::
        (',' :: '"' :: (['s', 'c', 'o', 'r', 'e'] ++ '"' :: ':' :: '"' :: (v2 ++ '"' ::
          (',' :: '"' :: (['r', 'i', 's', 'k'] ++ '"' :: ':' :: '"' :: (v3 ++ '"' ::
            [rbrace])))))))) := by
    simp [midChars]
  rw [hmid]
  have hobj : ∀ (n : Nat) (X : List Char),
      parseObjBody (n + 1) ('"' :: X) = parseMembers n X [] := by
    intro n X
    simp only [parseObjBody, hswq]
    simp [(by decide : ¬(('"' : Char) = rbrace))]
  rw [show ('"' :: (['i', 'p'] ++ '"' :: ':' :: '"' :: (v1 ++ '"' ::
        (',' :: '"' :: (['s', 'c', 'o', 'r', 'e'] ++ '"' :: ':' :: '"' :: (v2 ++ '"' ::
          (',' :: '"' :: (['r', 'i', 's', 'k'] ++ '"' :: ':' :: '"' :: (v3 ++ '"' ::
            [rbrace])))))))) : List Char).length =
    ((['i', 'p'] ++ '"' :: ':' :: '"' :: (v1 ++ '"' ::
        (',' :: '"' :: (['s', 'c', 'o', 'r', 'e'] ++ '"' :: ':' :: '"' :: (v2 ++ '"' ::
          (',' :: '"' :: (['r', 'i', 's', 'k'] ++ '"' :: ':' :: '"' :: (v3 ++ '"' ::
            [rbrace])))))))) : List Char).length + 1 from by simp]
  rw [hobj]
  rw [parseMembers_three v1 v2 v3 g1 g2 g3 _ (by simp [List.length_append] <;> omega)]
  simp [skipWs]

theorem safeLoads_objChars (v1 v2 v3 : List Char)
    (g1 : ∀ c ∈ v1, c ≠ '"' ∧ c ≠ '\\' ∧ 32 ≤ c.toNat)
    (g2 : ∀ c ∈ v2, c ≠ '"' ∧ c ≠ '\\' ∧ 32 ≤ c.toNat)
    (g3 : ∀ c ∈ v3, c ≠ '"' ∧ c ≠ '\\' ∧ 32 ≤ c.toNat) :
    safe_json_loads (objChars v1 v2 v3) =
      some (.obj [("ip", .str v1.asString), ("score", .str v2.asString),
        ("risk", .str v3.asString)]) := by
  unfold safe_json_loads
  rw [jsonLoads_objChars v1 v2 v3 g1 g2 g3]

/-- C2 counterexample: the page text is the anchor phrase followed by a
valid balanced JSON object with string fields `ip`, `score`, `risk` (first
conjunct: it parses, with exactly those values) — but because the `ip`
value contains `//`, the comment-strip sanitization truncates the
candidate and the result is a `json_parse_failed` record instead of the
field values.  This refutes the claim as stated for arbitrary such
objects. -/
theorem c2_counterexample :
    jsonLoads "\x7b\"ip\":\"a//b\",\"score\":\"1\",\"risk\":\"low\"\x7d".toList =
      some (.obj [("ip", .str "a//b"), ("score", .str "1"), ("risk", .str "low")]) ∧
    checkBody "7.7.7.7"
      "IP Fraud Risk API\x7b\"ip\":\"a//b\",\"score\":\"1\",\"risk\":\"low\"\x7d" =
      [("ip", .str "7.7.7.7"), ("error", .str "json_parse_failed"),
       ("raw", .str "\x7b\"ip\":\"a")] :=
  ⟨rfl, rfl⟩

/-- C2 amended: for a page text consisting of the anchor phrase followed
by `{"ip":"v1","score":"v2","risk":"v3"}` whose field values avoid the
characters rewritten by the sanitization passes (no quotes, backslashes,
braces, `]`, `<`, whitespace or control characters, and no `...` or `//`
runs — `valueSafe`), extraction reproduces exactly those three values in
the result. -/
theorem c2_roundtrip_safe_values (ip : String) (v1 v2 v3 : List Char)
    (h1 : valueSafe v1 = true) (h2 : valueSafe v2 = true)
    (h3 : valueSafe v3 = true) :
    dictGet (checkBodyCore ip (anchorChars ++ objChars v1 v2 v3)) "ip" =
      some (.str v1.asString) ∧
    dictGet (checkBodyCore ip (anchorChars ++ objChars v1 v2 v3)) "score" =
      some (.str v2.asString) ∧
    dictGet (checkBodyCore ip (anchorChars ++ objChars v1 v2 v3)) "risk" =
      some (.str v3.asString) := by
  have g : ∀ v, valueSafe v = true →
      ∀ c ∈ v, c ≠ '"' ∧ c ≠ '\\' ∧ 32 ≤ c.toNat := by
    intro v hv c hm
    have hg := plain_good c ((valueSafe_parts v hv).1 c hm)
    exact ⟨hg.2.2.2.2.2.1, hg.2.2.2.2.2.2.1, hg.2.2.2.2.2.2.2⟩
  have hx := extract_objChars v1 v2 v3 h1 h2 h3
  have hp := safeLoads_objChars v1 v2 v3 (g v1 h1) (g v2 h2) (g v3 h3)
  have ht : jsonFalsy (.obj [("ip", .str v1.asString), ("score", .str v2.asString),
      ("risk", .str v3.asString)]) = false := rfl
  rw [checkBodyCore_success ip (anchorChars ++ objChars v1 v2 v3) _ _ hx hp ht]
  refine ⟨?_, ?_, ?_⟩
  · rw [successOut_get_ip]
    simp [dictGet]
  · rw [successOut_get_score]
    simp [dictGet]
  · rw [successOut_get_risk]
    simp [dictGet]

/-- Witness for the amended C2 at concrete safe values. -/
theorem c2_roundtrip_safe_values_witness :
    valueSafe "1.2.3.4".toList = true ∧ valueSafe "25".toList = true ∧
    valueSafe "low".toList = true ∧
    (dictGet (checkBodyCore "9.9.9.9"
        (anchorChars ++ objChars "1.2.3.4".toList "25".toList "low".toList)) "ip" =
      some (.str "1.2.3.4") ∧
     dictGet (checkBodyCore "9.9.9.9"
        (anchorChars ++ objChars "1.2.3.4".toList "25".toList "low".toList)) "score" =
      some (.str "25") ∧
     dictGet (checkBodyCore "9.9.9.9"
        (anchorChars ++ objChars "1.2.3.4".toList "25".toList "low".toList)) "risk" =
      some (.str "low")) :=
  ⟨by decide, by decide, by decide,
   c2_roundtrip_safe_values "9.9.9.9" "1.2.3.4".toList "25".toList "low".toList
     (by decide) (by decide) (by decide)⟩

end Scam
